import Mathlib

/-!
Verification of the core streaming pipeline of the Omnifact chat widget.

The development shallowly embeds, over `List Char` text and `List Nat` byte
sequences, the three core components of the repository:

* `SSEHandler.processStream` (src/services/sse-handler.ts): the incremental
  SSE frame parser and result accumulator, including the streaming UTF-8
  decoder it relies on (a `TextDecoder` used with the stream flag, modelled
  byte-for-byte after the WHATWG Encoding standard's UTF-8 decode automaton);
* `MarkdownRenderer.render` (the markdown renderer class shipped alongside
  the chat window component): escaping plus the fixed ordered transform
  pipeline;
* `MessageItem._processCitations` (src/components/message-item.ts): the
  citation-marker resolution pass.

Callbacks are modelled as an invocation trace carried by the accumulator
state (the embedding assumes all five callbacks are supplied and do not
throw, which is the regime the verified claims quantify over).  The host
platform's `JSON.parse` is modelled by an executable parser `jsonParse`
over the JSON grammar, with two documented restrictions: numbers are
restricted to integer literals, and lone UTF-16 surrogate escapes decode to
U+FFFD (Lean characters are unicode scalar values).
-/

set_option maxHeartbeats 1000000

namespace Omnifact

/-! ## JavaScript string helpers -/

/-- Characters treated as whitespace by JavaScript's `String.prototype.trim`
(ASCII whitespace plus NBSP and BOM; rarer Unicode space classes are not
modelled because the wire protocol framing is ASCII). -/
def jsWs (c : Char) : Bool :=
  c = ' ' || c = '\t' || c = '\n' || c = '\r' ||
  c = Char.ofNat 11 || c = Char.ofNat 12 || c = Char.ofNat 0xA0 || c = Char.ofNat 0xFEFF

/-- Left trim, as in JavaScript `trimStart`. -/
def trimL (l : List Char) : List Char := l.dropWhile jsWs

/-- Right trim, as in JavaScript `trimEnd`. -/
def trimR (l : List Char) : List Char := (l.reverse.dropWhile jsWs).reverse

/-- JavaScript `String.prototype.trim` on a character list. -/
def jsTrim (l : List Char) : List Char := trimR (trimL l)

/-- JavaScript `s.split('\n')` on a character list: newline-separated
segments, never the empty list; a trailing newline yields a final empty
segment. -/
def splitNl : List Char → List (List Char)
  | [] => [[]]
  | c :: rest =>
    if c = '\n' then [] :: splitNl rest
    else
      match splitNl rest with
      | [] => [[c]]
      | l :: ls => (c :: l) :: ls

/-- The opening brace character. -/
def lbrace : Char := Char.ofNat 123

/-- The closing brace character. -/
def rbrace : Char := Char.ofNat 125

/-! ## JSON values and the modelled JSON.parse -/

/-- JSON values as produced by the host's `JSON.parse`, with numbers
restricted to integer literals (none of the protocol payloads relevant to
the verified claims carry fractional numbers).  Objects keep their
key/value pairs in textual order. -/
inductive Json where
  | null : Json
  | bool (b : Bool) : Json
  | num (n : Int) : Json
  | str (s : List Char) : Json
  | arr (elems : List Json) : Json
  | obj (fields : List (List Char × Json)) : Json
deriving Repr

/-- JavaScript truthiness of a parsed JSON value. -/
def truthy : Json → Bool
  | .null => false
  | .bool b => b
  | .num n => n != 0
  | .str s => !s.isEmpty
  | .arr _ => true
  | .obj _ => true

/-- Property read `v.key` on a parsed JSON value: objects yield the value of
the last binding for the key (`JSON.parse` keeps the last duplicate key);
other defined values have no such own property, yielding `undefined`
(modelled as `none`).  Reading a property of `null` throws in JavaScript
and is handled separately at the call sites. -/
def getField (j : Json) (k : List Char) : Option Json :=
  match j with
  | .obj fields => fields.foldl (fun acc kv => if kv.1 = k then some kv.2 else acc) none
  | _ => none

/-- Decimal rendering of an integer, as JavaScript `String(n)`. -/
def intToChars (n : Int) : List Char := (toString n).toList

mutual

/-- JavaScript `String(v)` coercion for parsed JSON values. -/
def jsToString : Json → List Char
  | .null => "null".toList
  | .bool true => "true".toList
  | .bool false => "false".toList
  | .num n => intToChars n
  | .str s => s
  | .arr es => jsArrToString es
  | .obj _ => "[object Object]".toList

/-- Array stringification, per `Array.prototype.toString`: elements joined
with commas, `null` elements rendering as the empty string. -/
def jsArrToString : List Json → List Char
  | [] => []
  | [Json.null] => []
  | [e] => jsToString e
  | Json.null :: rest => ',' :: jsArrToString rest
  | e :: rest => jsToString e ++ ',' :: jsArrToString rest

end

/-- Diagnostic carried by the modelled SyntaxError on a malformed token. -/
def jsonErrTok : List Char := "Unexpected token in JSON".toList

/-- Diagnostic carried by the modelled SyntaxError on truncated input. -/
def jsonErrEnd : List Char := "Unexpected end of JSON input".toList

/-- Whitespace skipped between JSON tokens. -/
def jsonWsChar (c : Char) : Bool := c = ' ' || c = '\t' || c = '\n' || c = '\r'

/-- ASCII decimal digit test. -/
def isDigitCh (c : Char) : Bool := '0' ≤ c && c ≤ '9'

/-- Hexadecimal digit value. -/
def hexVal (c : Char) : Option Nat :=
  if '0' ≤ c && c ≤ '9' then some (c.toNat - 48)
  else if 'a' ≤ c && c ≤ 'f' then some (c.toNat - 87)
  else if 'A' ≤ c && c ≤ 'F' then some (c.toNat - 55)
  else none

/-- Value of a list of decimal digits. -/
def digitsToNat (ds : List Char) : Nat :=
  ds.foldl (fun n c => n * 10 + (c.toNat - 48)) 0

/-- Parse the body of a JSON string literal after the opening quote,
returning the decoded characters and the remaining input.  Escapes follow
the JSON grammar; a surrogate pair of `\uXXXX` escapes decodes to one
scalar value, and a lone surrogate decodes to U+FFFD (a documented model
restriction: Lean characters are unicode scalar values). -/
def pStringBody : Nat → List Char → Option (List Char × List Char)
  | 0, _ => none
  | _, [] => none
  | fuel + 1, c :: rest =>
    if c = '"' then some ([], rest)
    else if c = '\\' then
      match rest with
      | [] => none
      | e :: r2 =>
        let simpleEsc : Option Char :=
          if e = '"' then some '"'
          else if e = '\\' then some '\\'
          else if e = '/' then some '/'
          else if e = 'b' then some (Char.ofNat 8)
          else if e = 'f' then some (Char.ofNat 12)
          else if e = 'n' then some '\n'
          else if e = 'r' then some '\r'
          else if e = 't' then some '\t'
          else none
        match simpleEsc with
        | some ch => (pStringBody fuel r2).map (fun p => (ch :: p.1, p.2))
        | none =>
          if e = 'u' then
            match r2 with
            | h1 :: h2 :: h3 :: h4 :: r3 =>
              match hexVal h1, hexVal h2, hexVal h3, hexVal h4 with
              | some v1, some v2, some v3, some v4 =>
                let code := ((v1 * 16 + v2) * 16 + v3) * 16 + v4
                if 0xD800 ≤ code && code ≤ 0xDBFF then
                  match r3 with
                  | '\\' :: 'u' :: k1 :: k2 :: k3 :: k4 :: r4 =>
                    match hexVal k1, hexVal k2, hexVal k3, hexVal k4 with
                    | some w1, some w2, some w3, some w4 =>
                      let code2 := ((w1 * 16 + w2) * 16 + w3) * 16 + w4
                      if 0xDC00 ≤ code2 && code2 ≤ 0xDFFF then
                        let combined := 0x10000 + (code - 0xD800) * 0x400 + (code2 - 0xDC00)
                        (pStringBody fuel r4).map (fun p => (Char.ofNat combined :: p.1, p.2))
                      else (pStringBody fuel r3).map (fun p => (Char.ofNat 0xFFFD :: p.1, p.2))
                    | _, _, _, _ =>
                      (pStringBody fuel r3).map (fun p => (Char.ofNat 0xFFFD :: p.1, p.2))
                  | _ => (pStringBody fuel r3).map (fun p => (Char.ofNat 0xFFFD :: p.1, p.2))
                else if 0xDC00 ≤ code && code ≤ 0xDFFF then
                  (pStringBody fuel r3).map (fun p => (Char.ofNat 0xFFFD :: p.1, p.2))
                else
                  (pStringBody fuel r3).map (fun p => (Char.ofNat code :: p.1, p.2))
              | _, _, _, _ => none
            | _ => none
          else none
    else if c.toNat < 0x20 then none
    else (pStringBody fuel rest).map (fun p => (c :: p.1, p.2))

/-- Parse a JSON number token (integer literals only; a fraction or exponent
is rejected by this model, a documented restriction). -/
def pNum (s : List Char) : Except (List Char) (Json × List Char) :=
  let negAndBody : Bool × List Char :=
    match s with
    | '-' :: r => (true, r)
    | _ => (false, s)
  let ds := negAndBody.2.takeWhile isDigitCh
  let rest := negAndBody.2.dropWhile isDigitCh
  if ds = [] then Except.error jsonErrTok
  else if ds.length > 1 && ds.headD '0' = '0' then Except.error jsonErrTok
  else
    match rest with
    | '.' :: _ => Except.error jsonErrTok
    | 'e' :: _ => Except.error jsonErrTok
    | 'E' :: _ => Except.error jsonErrTok
    | _ =>
      let n : Int := Int.ofNat (digitsToNat ds)
      Except.ok (Json.num (if negAndBody.1 then -n else n), rest)

mutual

/-- Parse one JSON value, returning it and the remaining input. -/
def pVal : Nat → List Char → Except (List Char) (Json × List Char)
  | 0, _ => Except.error jsonErrEnd
  | fuel + 1, s =>
    match s.dropWhile jsonWsChar with
    | [] => Except.error jsonErrEnd
    | c :: rest =>
      if c = lbrace then
        match rest.dropWhile jsonWsChar with
        | [] => Except.error jsonErrEnd
        | c2 :: r2 =>
          if c2 = rbrace then Except.ok (Json.obj [], r2)
          else pMembers fuel (c2 :: r2) []
      else if c = '[' then
        match rest.dropWhile jsonWsChar with
        | [] => Except.error jsonErrEnd
        | ']' :: r2 => Except.ok (Json.arr [], r2)
        | c2 :: r2 => pElems fuel (c2 :: r2) []
      else if c = '"' then
        match pStringBody (rest.length + 1) rest with
        | some (s1, r) => Except.ok (Json.str s1, r)
        | none => Except.error jsonErrTok
      else if c = 't' then
        if ("rue".toList).isPrefixOf rest then Except.ok (Json.bool true, rest.drop 3)
        else Except.error jsonErrTok
      else if c = 'f' then
        if ("alse".toList).isPrefixOf rest then Except.ok (Json.bool false, rest.drop 4)
        else Except.error jsonErrTok
      else if c = 'n' then
        if ("ull".toList).isPrefixOf rest then Except.ok (Json.null, rest.drop 3)
        else Except.error jsonErrTok
      else if c = '-' || isDigitCh c then pNum (c :: rest)
      else Except.error jsonErrTok

/-- Parse the members of a JSON object after the opening brace (first member
onward), accumulating the fields in order. -/
def pMembers : Nat → List Char → List (List Char × Json) →
    Except (List Char) (Json × List Char)
  | 0, _, _ => Except.error jsonErrEnd
  | fuel + 1, s, acc =>
    match s.dropWhile jsonWsChar with
    | '"' :: rest =>
      match pStringBody (rest.length + 1) rest with
      | some (key, r1) =>
        match r1.dropWhile jsonWsChar with
        | ':' :: r2 =>
          match pVal fuel r2 with
          | Except.ok (v, r3) =>
            match r3.dropWhile jsonWsChar with
            | ',' :: r4 => pMembers fuel r4 (acc ++ [(key, v)])
            | c :: r4 =>
              if c = rbrace then Except.ok (Json.obj (acc ++ [(key, v)]), r4)
              else Except.error jsonErrTok
            | [] => Except.error jsonErrEnd
          | Except.error e => Except.error e
        | _ => Except.error jsonErrTok
      | none => Except.error jsonErrTok
    | _ => Except.error jsonErrTok

/-- Parse the elements of a JSON array after the opening bracket (first
element onward), accumulating the elements in order. -/
def pElems : Nat → List Char → List Json → Except (List Char) (Json × List Char)
  | 0, _, _ => Except.error jsonErrEnd
  | fuel + 1, s, acc =>
    match pVal fuel s with
    | Except.ok (v, r1) =>
      match r1.dropWhile jsonWsChar with
      | ',' :: r2 => pElems fuel r2 (acc ++ [v])
      | ']' :: r2 => Except.ok (Json.arr (acc ++ [v]), r2)
      | _ => Except.error jsonErrTok
    | Except.error e => Except.error e

end

/-- Model of the host's `JSON.parse`: parse a complete JSON text; the error
case carries the SyntaxError diagnostic (a parser message, never the raw
input text). -/
def jsonParse (s : List Char) : Except (List Char) Json :=
  match pVal (s.length + 1) s with
  | Except.ok (v, rest) =>
    if rest.dropWhile jsonWsChar = [] then Except.ok v else Except.error jsonErrTok
  | Except.error e => Except.error e

/-! ## Protocol events, callback trace, and the accumulator state

These model `SSEHandler.processStream` (src/services/sse-handler.ts).  The
local variables of the source (`buffer`, `currentEvent`,
`accumulatedContent`, `messageId`, `references`, `sources`) appear as the
pending-line buffer plus the `Acc` record; callbacks are recorded in an
invocation trace, and each classified `data:` line additionally records the
protocol event it was classified as. -/

/-- A classified protocol event (spec §3 data model): the classification a
`data:` line receives from the most recently recorded event name. -/
inductive ProtocolEvent where
  | contentDelta (rawPayload : List Char)
  | legacyReferences (payload : List Char)
  | inlineSource (payload : List Char)
  | done
  | streamError (payload : List Char)
  | unknown (eventName : Option (List Char)) (payload : List Char)
deriving Repr, DecidableEq

/-- The final stream result: `{ content, messageId, references, sources }`
with `sources` null when empty.  `messageId` and `references` hold the raw
JavaScript values taken from the payloads (strings in every intended run). -/
structure StreamResult where
  content : List Char
  messageId : Option Json
  references : Option Json
  sources : Option (List Json)
deriving Repr

/-- One recorded callback invocation.  `chunk` records `onChunk(delta,
accumulated, messageId)` with the delta in its string form; `refs` records
`onReferences`; `src` records `onSource`; `complete` records `onComplete`;
`fatal` records `onError` with the raised error's message. -/
inductive CbEvent where
  | chunk (delta accumulated : List Char) (messageId : Option Json)
  | refs (r : Json)
  | src (s : Json)
  | complete (r : StreamResult)
  | fatal (message : List Char)
deriving Repr

/-- The accumulator: the source's per-stream local variables other than the
pending-line buffer (kept separately, as in the source), plus the recorded
classification and callback history. -/
structure Acc where
  currentEvent : Option (List Char)
  content : List Char
  messageId : Option Json
  references : Option Json
  sources : List Json
  events : List ProtocolEvent
  trace : List CbEvent
deriving Repr

/-- The accumulator at the start of a `processStream` call. -/
def initAcc : Acc :=
  { currentEvent := none, content := [], messageId := none, references := none,
    sources := [], events := [], trace := [] }

/-- Terminal outcome of a stream: the `done` branch's successful return or a
raised error, together with the classification and callback history at that
point. -/
inductive Outcome where
  | ok (r : StreamResult) (events : List ProtocolEvent) (trace : List CbEvent)
  | fail (message : List Char) (events : List ProtocolEvent) (trace : List CbEvent)
deriving Repr

/-- Result of processing one line: still streaming, or terminated. -/
inductive LineRes where
  | cont (a : Acc) : LineRes
  | halt (o : Outcome) : LineRes
deriving Repr

/-- The event names carrying semantics. -/
def evAssistantWrite : List Char := "assistant_write".toList

/-- Event name of the legacy references event. -/
def evReferences : List Char := "references".toList

/-- Event name of the inline source event. -/
def evMessageSource : List Char := "message_source".toList

/-- Event name of the terminal event. -/
def evDone : List Char := "done".toList

/-- Event name of the fatal error event. -/
def evError : List Char := "error".toList

/-- The fallback error message literal `'Stream error'`. -/
def streamErrorMsg : List Char := "Stream error".toList

/-- Message of the TypeError raised by reading `.message` on `null`. -/
def nullReadMsg : List Char :=
  "Cannot read properties of null".toList

/-- Null test on a parsed JSON value. -/
def isNull : Json → Bool
  | .null => true
  | _ => false

/-- `StreamResult` built from the current accumulator, as in both the `done`
branch and the end-of-source path: `sources.length > 0 ? sources : null`. -/
def synthResult (a : Acc) : StreamResult :=
  { content := a.content, messageId := a.messageId, references := a.references,
    sources := if a.sources.length > 0 then some a.sources else none }

/-- The raw-content fallback of the `assistant_write` branch: append the
payload string verbatim and invoke `onChunk` with it. -/
def rawAppend (a : Acc) (dataStr : List Char) : LineRes :=
  let newContent := a.content ++ dataStr
  LineRes.cont { a with
    content := newContent,
    events := a.events ++ [ProtocolEvent.contentDelta dataStr],
    trace := a.trace ++ [CbEvent.chunk dataStr newContent a.messageId] }

/-- The `assistant_write` branch: parse the payload as JSON; on success with
a truthy `content`, update `messageId` when a truthy one is supplied, append
the content, and invoke `onChunk`; on a parse failure — or on the TypeError
a `null` payload's property read raises, which the same `catch` captures —
fall back to appending the raw payload. -/
def awStep (a : Acc) (dataStr : List Char) : LineRes :=
  match jsonParse dataStr with
  | Except.error _ => rawAppend a dataStr
  | Except.ok data =>
    if isNull data then rawAppend a dataStr
    else
      match getField data ("content".toList) with
      | some cv =>
        if truthy cv then
          let newMsgId : Option Json :=
            match getField data ("messageId".toList) with
            | some mv => if truthy mv then some mv else a.messageId
            | none => a.messageId
          let newContent := a.content ++ jsToString cv
          LineRes.cont { a with
            messageId := newMsgId,
            content := newContent,
            events := a.events ++ [ProtocolEvent.contentDelta dataStr],
            trace := a.trace ++ [CbEvent.chunk (jsToString cv) newContent newMsgId] }
        else
          LineRes.cont { a with events := a.events ++ [ProtocolEvent.contentDelta dataStr] }
      | none =>
        LineRes.cont { a with events := a.events ++ [ProtocolEvent.contentDelta dataStr] }

/-- The `references` branch: parse; on success replace `references` and
invoke `onReferences`; on failure only warn. -/
def refStep (a : Acc) (dataStr : List Char) : LineRes :=
  match jsonParse dataStr with
  | Except.ok data =>
    LineRes.cont { a with
      references := some data,
      events := a.events ++ [ProtocolEvent.legacyReferences dataStr],
      trace := a.trace ++ [CbEvent.refs data] }
  | Except.error _ =>
    LineRes.cont { a with events := a.events ++ [ProtocolEvent.legacyReferences dataStr] }

/-- The `message_source` branch: parse; on success push onto `sources` and
invoke `onSource`; on failure only warn. -/
def srcStep (a : Acc) (dataStr : List Char) : LineRes :=
  match jsonParse dataStr with
  | Except.ok data =>
    LineRes.cont { a with
      sources := a.sources ++ [data],
      events := a.events ++ [ProtocolEvent.inlineSource dataStr],
      trace := a.trace ++ [CbEvent.src data] }
  | Except.error _ =>
    LineRes.cont { a with events := a.events ++ [ProtocolEvent.inlineSource dataStr] }

/-- The `error` branch, translating the source's try/catch faithfully: on a
successful parse, `new Error(errorData.message || 'Stream error')` is
thrown and then re-thrown by the catch guard whenever its message differs
from `'Stream error'`; otherwise the catch throws `new Error(dataStr ||
'Stream error')`.  A parse failure's SyntaxError — and the TypeError a
`null` payload's property read raises — also reach the catch guard, whose
`e.message !== 'Stream error'` test re-throws them (so the raw-payload
fallback is unreachable on a parse failure). -/
def errStep (a : Acc) (dataStr : List Char) : LineRes :=
  let ev2 := a.events ++ [ProtocolEvent.streamError dataStr]
  let rawMsg := if dataStr.length > 0 then dataStr else streamErrorMsg
  match jsonParse dataStr with
  | Except.ok data =>
    if isNull data then LineRes.halt (Outcome.fail nullReadMsg ev2 a.trace)
    else
      let m1 : List Char :=
        match getField data ("message".toList) with
        | some mv => if truthy mv then jsToString mv else streamErrorMsg
        | none => streamErrorMsg
      if m1 = streamErrorMsg then LineRes.halt (Outcome.fail rawMsg ev2 a.trace)
      else LineRes.halt (Outcome.fail m1 ev2 a.trace)
  | Except.error em =>
    if em = streamErrorMsg then LineRes.halt (Outcome.fail rawMsg ev2 a.trace)
    else LineRes.halt (Outcome.fail em ev2 a.trace)

/-- Dispatch of one `data:` payload on the recorded event name, in the
source's test order; the `done` branch returns the synthesized result after
invoking `onComplete`, and an unrecognized (or absent) event name only logs. -/
def dataStep (a : Acc) (dataStr : List Char) : LineRes :=
  if a.currentEvent = some evAssistantWrite then awStep a dataStr
  else if a.currentEvent = some evReferences then refStep a dataStr
  else if a.currentEvent = some evMessageSource then srcStep a dataStr
  else if a.currentEvent = some evDone then
    let r := synthResult a
    LineRes.halt (Outcome.ok r (a.events ++ [ProtocolEvent.done])
      (a.trace ++ [CbEvent.complete r]))
  else if a.currentEvent = some evError then errStep a dataStr
  else LineRes.cont { a with events := a.events ++ [ProtocolEvent.unknown a.currentEvent dataStr] }

/-- Process one complete line: trim it; an empty line is an event boundary
and is skipped; `event: ` records the (re-trimmed) event name; `id: ` is
skipped; `data: ` dispatches its payload; anything else is ignored. -/
def lineStep (a : Acc) (line : List Char) : LineRes :=
  let tl := jsTrim line
  if tl = [] then LineRes.cont a
  else if ("event: ".toList).isPrefixOf tl then
    LineRes.cont { a with currentEvent := some (jsTrim (tl.drop 7)) }
  else if ("id: ".toList).isPrefixOf tl then LineRes.cont a
  else if ("data: ".toList).isPrefixOf tl then dataStep a (tl.drop 6)
  else LineRes.cont a

/-- Process the complete lines of one chunk in order, stopping at the first
terminal line as the source's `return`/`throw` does. -/
def processLines (a : Acc) : List (List Char) → LineRes
  | [] => LineRes.cont a
  | l :: ls =>
    match lineStep a l with
    | LineRes.cont a2 => processLines a2 ls
    | r => r

/-- State of the text-level stream processor between chunks. -/
inductive TextRes where
  | cont (buffer : List Char) (a : Acc) : TextRes
  | halt (o : Outcome) : TextRes
deriving Repr

/-- Process one decoded text chunk: append it to the pending buffer, split
on newlines, retain the last (possibly incomplete) piece as the new buffer,
and process the complete lines.  A terminated stream consumes no further
chunks. -/
def textChunkStep : TextRes → List Char → TextRes
  | TextRes.cont buf a, text =>
    let parts := splitNl (buf ++ text)
    match processLines a parts.dropLast with
    | LineRes.cont a2 => TextRes.cont (parts.getLastD []) a2
    | LineRes.halt o => TextRes.halt o
  | s, _ => s

/-- Fold the text-level processor over a list of decoded chunks. -/
def runText (chunks : List (List Char)) : TextRes :=
  chunks.foldl textChunkStep (TextRes.cont [] initAcc)

/-- Final return value of `processStream` at the text level: the `done`
branch's result, the raised error (after invoking `onError`, as the outer
catch does), or — when the source ends while still streaming — the
synthesized result after invoking `onComplete`. -/
def processText (chunks : List (List Char)) :
    Except (List Char) StreamResult × List ProtocolEvent × List CbEvent :=
  match runText chunks with
  | TextRes.cont _ a =>
    let r := synthResult a
    (Except.ok r, a.events, a.trace ++ [CbEvent.complete r])
  | TextRes.halt (Outcome.ok r ev tr) => (Except.ok r, ev, tr)
  | TextRes.halt (Outcome.fail m ev tr) => (Except.error m, ev, tr ++ [CbEvent.fatal m])

/-! ## Streaming UTF-8 decoding and the byte-level processor

`processStream` reads byte chunks and decodes them with a `TextDecoder`
used with the stream flag: the WHATWG Encoding standard's UTF-8 decode
automaton, which carries an incomplete trailing sequence from one chunk to
the next and never emits a replacement character for a split (merely
incomplete) sequence.  The code never flushes the decoder when the source
ends, so a trailing incomplete sequence is silently dropped. -/

/-- State of the WHATWG UTF-8 decode automaton between bytes. -/
structure DecState where
  codePoint : Nat
  bytesSeen : Nat
  bytesNeeded : Nat
  lowerB : Nat
  upperB : Nat
deriving Repr, DecidableEq

/-- The automaton's initial (and post-emit) state. -/
def decInit : DecState := { codePoint := 0, bytesSeen := 0, bytesNeeded := 0,
                            lowerB := 0x80, upperB := 0xBF }

/-- Feed one byte to the automaton in its start state. -/
def decStart (b : Nat) : DecState × List Char :=
  if b ≤ 0x7F then (decInit, [Char.ofNat b])
  else if 0xC2 ≤ b && b ≤ 0xDF then
    ({ decInit with bytesNeeded := 1, codePoint := b % 32 }, [])
  else if 0xE0 ≤ b && b ≤ 0xEF then
    ({ codePoint := b % 16, bytesSeen := 0, bytesNeeded := 2,
       lowerB := (if b = 0xE0 then 0xA0 else 0x80),
       upperB := (if b = 0xED then 0x9F else 0xBF) }, [])
  else if 0xF0 ≤ b && b ≤ 0xF4 then
    ({ codePoint := b % 8, bytesSeen := 0, bytesNeeded := 3,
       lowerB := (if b = 0xF0 then 0x90 else 0x80),
       upperB := (if b = 0xF4 then 0x8F else 0xBF) }, [])
  else (decInit, [Char.ofNat 0xFFFD])

/-- Feed one byte to the automaton: continuation bytes accumulate into the
pending code point; a byte outside the expected boundaries emits U+FFFD and
is reprocessed from the start state. -/
def decFeed (d : DecState) (b : Nat) : DecState × List Char :=
  if d.bytesNeeded = 0 then decStart b
  else if b < d.lowerB || d.upperB < b then
    let p := decStart b
    (p.1, Char.ofNat 0xFFFD :: p.2)
  else
    let cp := d.codePoint * 64 + (b % 64)
    if d.bytesSeen + 1 = d.bytesNeeded then (decInit, [Char.ofNat cp])
    else ({ codePoint := cp, bytesSeen := d.bytesSeen + 1,
            bytesNeeded := d.bytesNeeded, lowerB := 0x80, upperB := 0xBF }, [])

/-- Decode one whole chunk, threading the automaton state, as
`decoder.decode(value, { stream: true })` does. -/
def decodeChunkBytes (d : DecState) : List Nat → DecState × List Char
  | [] => (d, [])
  | b :: bs =>
    let p := decFeed d b
    let q := decodeChunkBytes p.1 bs
    (q.1, p.2 ++ q.2)

/-- State of the byte-level stream processor between chunks. -/
inductive ByteRes where
  | cont (d : DecState) (buffer : List Char) (a : Acc) : ByteRes
  | halt (o : Outcome) : ByteRes
deriving Repr

/-- Process one byte chunk: decode it (threading the decoder state), then
process the decoded text exactly as the text level does. -/
def byteChunkStep : ByteRes → List Nat → ByteRes
  | ByteRes.cont d buf a, bytes =>
    let p := decodeChunkBytes d bytes
    match textChunkStep (TextRes.cont buf a) p.2 with
    | TextRes.cont buf2 a2 => ByteRes.cont p.1 buf2 a2
    | TextRes.halt o => ByteRes.halt o
  | s, _ => s

/-- Fold the byte-level processor over the chunk sequence. -/
def runBytes (chunks : List (List Nat)) : ByteRes :=
  chunks.foldl byteChunkStep (ByteRes.cont decInit [] initAcc)

/-- `SSEHandler.processStream` over a byte-chunk source: its return value
(or raised error message), the classified protocol events, and the callback
invocation trace. -/
def processStream (chunks : List (List Nat)) :
    Except (List Char) StreamResult × List ProtocolEvent × List CbEvent :=
  match runBytes chunks with
  | ByteRes.cont _ _ a =>
    let r := synthResult a
    (Except.ok r, a.events, a.trace ++ [CbEvent.complete r])
  | ByteRes.halt (Outcome.ok r ev tr) => (Except.ok r, ev, tr)
  | ByteRes.halt (Outcome.fail m ev tr) => (Except.error m, ev, tr ++ [CbEvent.fatal m])

/-- UTF-8 encoding of one scalar value (used to build concrete byte inputs
in the theorems below). -/
def utf8Char (c : Char) : List Nat :=
  let n := c.toNat
  if n ≤ 0x7F then [n]
  else if n ≤ 0x7FF then [0xC0 + n / 64, 0x80 + n % 64]
  else if n ≤ 0xFFFF then [0xE0 + n / 4096, 0x80 + (n / 64) % 64, 0x80 + n % 64]
  else [0xF0 + n / 0x40000, 0x80 + (n / 4096) % 64, 0x80 + (n / 64) % 64, 0x80 + n % 64]

/-- UTF-8 encoding of a character list. -/
def utf8Enc (s : List Char) : List Nat := s.flatMap utf8Char

/-! ## Markdown renderer

Model of `MarkdownRenderer.render`: HTML escaping followed by the fixed
ordered transform pipeline (code blocks, inline code, headers, bold,
italic, links, lists, line breaks).  Each regex-based transform is embedded
as a scanner with the same matching semantics as the source's global
`String.replace`; `linkTarget` is the constructor default `_blank`. -/

/-- Escape one character per `_escapeHtml`'s replacement map. -/
def escChar (c : Char) : List Char :=
  if c = '&' then "&amp;".toList
  else if c = '<' then "&lt;".toList
  else if c = '>' then "&gt;".toList
  else if c = '"' then "&quot;".toList
  else if c = '\'' then "&#039;".toList
  else [c]

/-- `_escapeHtml`: escape the five HTML special characters. -/
def escapeHtml (l : List Char) : List Char := l.flatMap escChar

/-- Word character, as the regex class `\w`. -/
def isWordCh (c : Char) : Bool :=
  ('a' ≤ c && c ≤ 'z') || ('A' ≤ c && c ≤ 'Z') || ('0' ≤ c && c ≤ '9') || c = '_'

/-- Earliest split `t = content ++ pat ++ after` (content possibly empty);
with `noNl` set, a newline before the pattern aborts the search, matching a
lazy `(.+?)` group's inability to cross a newline. -/
def splitAtPat (pat : List Char) (noNl : Bool) : List Char → Option (List Char × List Char)
  | [] => none
  | c :: rest =>
    if pat.isPrefixOf (c :: rest) then some ([], (c :: rest).drop pat.length)
    else if noNl && c = '\n' then none
    else (splitAtPat pat noNl rest).map (fun p => (c :: p.1, p.2))

/-- Generic global-replace scanner: at each position try the matcher; on a
match emit its replacement and resume after the consumed text, otherwise
copy one character — the semantics of `String.replace` with a global
regex whose matches are nonempty. -/
def scanRep (matchAt : List Char → Option (List Char × List Char)) : Nat → List Char → List Char
  | 0, s => s
  | _, [] => []
  | fuel + 1, c :: rest =>
    match matchAt (c :: rest) with
    | some (rep, after) => rep ++ scanRep matchAt fuel after
    | none => c :: scanRep matchAt fuel rest

/-- Matcher for fenced code blocks: three backticks, an optional language
word immediately followed by a newline, then the lazily-matched body up to
the next three backticks; the body is trimmed and wrapped in
`<pre><code>`. -/
def mCodeBlock (s : List Char) : Option (List Char × List Char) :=
  if ("```".toList).isPrefixOf s then
    let afterTicks := s.drop 3
    let lang := afterTicks.takeWhile isWordCh
    match afterTicks.dropWhile isWordCh with
    | '\n' :: body =>
      match splitAtPat ("```".toList) false body with
      | some (code, after) =>
        let langCls :=
          if lang = [] then ([] : List Char)
          else " class=\"language-".toList ++ lang ++ "\"".toList
        some ("<pre><code".toList ++ langCls ++ ">".toList ++ jsTrim code ++
              "</code></pre>".toList, after)
      | none => none
    | _ => none
  else none

/-- `_renderCodeBlocks`. -/
def renderCodeBlocks (s : List Char) : List Char := scanRep mCodeBlock s.length s

/-- Matcher for inline code spans: a backtick, one or more non-backtick
characters, a closing backtick. -/
def mInlineCode (s : List Char) : Option (List Char × List Char) :=
  match s with
  | '`' :: rest =>
    let content := rest.takeWhile (fun x => x ≠ '`')
    match content, rest.drop content.length with
    | _ :: _, '`' :: r2 => some ("<code>".toList ++ content ++ "</code>".toList, r2)
    | _, _ => none
  | _ => none

/-- `_renderInlineCode`. -/
def renderInlineCode (s : List Char) : List Char := scanRep mInlineCode s.length s

/-- One multiline header pass: a line starting with the given marker and a
nonempty remainder is wrapped in the heading tag. -/
def headerLine (mark : List Char) (tagO tagC : List Char) (line : List Char) : List Char :=
  if mark.isPrefixOf line && line.drop mark.length ≠ [] then
    tagO ++ line.drop mark.length ++ tagC
  else line

/-- Join lines with newlines (JavaScript `Array.prototype.join('\n')`). -/
def joinNl : List (List Char) → List Char
  | [] => []
  | [l] => l
  | l :: ls => l ++ '\n' :: joinNl ls

/-- Apply a per-line transform to every line. -/
def mapLines (f : List Char → List Char) (s : List Char) : List Char :=
  joinNl ((splitNl s).map f)

/-- `_renderHeaders`: `###`, then `##`, then `#`, each as a multiline
line-anchored replace (`#` maps to `<h2>`, reserving `<h1>`). -/
def renderHeaders (s : List Char) : List Char :=
  mapLines (headerLine ("# ".toList) ("<h2>".toList) ("</h2>".toList))
    (mapLines (headerLine ("## ".toList) ("<h3>".toList) ("</h3>".toList))
      (mapLines (headerLine ("### ".toList) ("<h4>".toList) ("</h4>".toList)) s))

/-- Matcher for one bold alternative: the delimiter, a lazy nonempty
newline-free body, the closing delimiter. -/
def mBoldWith (delim : List Char) (s : List Char) : Option (List Char × List Char) :=
  if delim.isPrefixOf s then
    match s.drop delim.length with
    | [] => none
    | c :: rest =>
      if c = '\n' then none
      else (splitAtPat delim true rest).map
        (fun p => ("<strong>".toList ++ c :: p.1 ++ "</strong>".toList, p.2))
  else none

/-- Matcher for `_renderBold`'s alternation `**…**` or `__…__`. -/
def mBold (s : List Char) : Option (List Char × List Char) :=
  match mBoldWith ("**".toList) s with
  | some r => some r
  | none => mBoldWith ("__".toList) s

/-- `_renderBold`. -/
def renderBold (s : List Char) : List Char := scanRep mBold s.length s

/-- `_renderItalic`'s scanner: `*body*` where the position is not preceded
by `*` (lookbehind), the body is one or more non-`*` characters, and the
closing `*` is not followed by `*` (lookahead). -/
def italicScan : Nat → Option Char → List Char → List Char
  | 0, _, s => s
  | _, _, [] => []
  | fuel + 1, prev, c :: rest =>
    let noMatch := c :: italicScan fuel (some c) rest
    if c = '*' && prev ≠ some '*' then
      let content := rest.takeWhile (fun x => x ≠ '*')
      match content, rest.drop content.length with
      | _ :: _, '*' :: r3 =>
        if r3.headD ' ' = '*' && r3 ≠ [] then noMatch
        else "<em>".toList ++ content ++ "</em>".toList ++ italicScan fuel (some '*') r3
      | _, _ => noMatch
    else noMatch

/-- `_renderItalic`. -/
def renderItalic (s : List Char) : List Char := italicScan s.length none s

/-- Matcher for links `[text](url)` with nonempty bracket classes. -/
def mLink (s : List Char) : Option (List Char × List Char) :=
  match s with
  | '[' :: rest =>
    let txt := rest.takeWhile (fun x => x ≠ ']')
    match txt, rest.drop txt.length with
    | _ :: _, ']' :: '(' :: r2 =>
      let url := r2.takeWhile (fun x => x ≠ ')')
      match url, r2.drop url.length with
      | _ :: _, ')' :: r4 =>
        some ("<a href=\"".toList ++ url ++
              "\" target=\"_blank\" rel=\"noopener noreferrer\">".toList ++
              txt ++ "</a>".toList, r4)
      | _, _ => none
    | _, _ => none
  | _ => none

/-- `_renderLinks`. -/
def renderLinks (s : List Char) : List Char := scanRep mLink s.length s

/-- Content of a list-item line per the regex `^[-*]\s+(.+)$`, with the
greedy whitespace run backtracking one character when the rest would be
empty. -/
def listItemContent (line : List Char) : Option (List Char) :=
  match line with
  | [] => none
  | c :: rest =>
    if c = '-' || c = '*' then
      let w := rest.takeWhile jsWs
      let z := rest.drop w.length
      if w = [] then none
      else if z ≠ [] then some z
      else if w.length ≥ 2 then some [w.getLastD ' ']
      else none
    else none

/-- The line loop of `_renderLists`: wrap runs of list-item lines in one
`<ul>`, closing at the first non-item line or at the end of input. -/
def renderListsGo : List (List Char) → Bool → List (List Char)
  | [], inList => if inList then ["</ul>".toList] else []
  | line :: ls, inList =>
    match listItemContent line with
    | some content =>
      let item := "<li>".toList ++ content ++ "</li>".toList
      if inList then item :: renderListsGo ls true
      else "<ul>".toList :: item :: renderListsGo ls true
    | none =>
      if inList then "</ul>".toList :: line :: renderListsGo ls false
      else line :: renderListsGo ls false

/-- `_renderLists`. -/
def renderLists (s : List Char) : List Char := joinNl (renderListsGo (splitNl s) false)

/-- Block-construct test of `_renderLineBreaks`. -/
def lbBlockStart (line : List Char) : Bool :=
  ("<pre>".toList).isPrefixOf line || ("<ul>".toList).isPrefixOf line ||
  ("</pre>".toList).isPrefixOf line || ("</ul>".toList).isPrefixOf line ||
  ("<li>".toList).isPrefixOf line || ("<h".toList).isPrefixOf line

/-- One line of `_renderLineBreaks`: append `<br>` to a non-block,
non-blank line whose successor exists, is nonempty, and does not start a
tag. -/
def lineBreakLine (line : List Char) (next : Option (List Char)) : List Char :=
  if lbBlockStart line then line
  else
    match next with
    | some nl =>
      if nl ≠ [] && !(("<".toList).isPrefixOf nl) && jsTrim line ≠ [] then
        line ++ "<br>".toList
      else line
    | none => line

/-- Map `lineBreakLine` over the lines with one-line lookahead. -/
def lineBreaksGo : List (List Char) → List (List Char)
  | [] => []
  | line :: ls => lineBreakLine line ls.head? :: lineBreaksGo ls

/-- `_renderLineBreaks`. -/
def renderLineBreaks (s : List Char) : List Char := joinNl (lineBreaksGo (splitNl s))

/-- The transform pipeline applied after optional escaping, in the source's
fixed order. -/
def mdPipeline (html : List Char) : List Char :=
  renderLineBreaks (renderLists (renderLinks (renderItalic (renderBold
    (renderHeaders (renderInlineCode (renderCodeBlocks html)))))))

/-- `MarkdownRenderer.render` with the given `sanitize` option (constructor
default `true`) and the default `linkTarget`. -/
def render (sanitize : Bool) (text : List Char) : List Char :=
  if text = [] then []
  else mdPipeline (if sanitize then escapeHtml text else text)

/-! ## Citation processor (`MessageItem._processCitations`) -/

/-- An inline source record as held by the message item (only the fields
the citation processor reads are modelled beyond identification). -/
structure InlineSourceRec where
  sourceId : List Char
  documentId : List Char
  documentName : List Char
  page : Option Int
deriving Repr

/-- `Map.prototype.set`: replace an existing binding in place, else append. -/
def insertNum (m : List (List Char × Nat)) (k : List Char) (v : Nat) :
    List (List Char × Nat) :=
  match m with
  | [] => [(k, v)]
  | kv :: rest => if kv.1 = k then (k, v) :: rest else kv :: insertNum rest k v

/-- `Map.prototype.get`. -/
def mapGet (m : List (List Char × Nat)) (k : List Char) : Option Nat :=
  match m with
  | [] => none
  | kv :: rest => if kv.1 = k then some kv.2 else mapGet rest k

/-- The indexed `forEach` loop of `_processCitations`:
`sources.forEach((source, index) => sourceMap.set(source.sourceId, index + 1))`. -/
def buildMapGo : List InlineSourceRec → Nat → List (List Char × Nat) → List (List Char × Nat)
  | [], _, m => m
  | s :: ss, i, m => buildMapGo ss (i + 1) (insertNum m s.sourceId (i + 1))

/-- The `sourceId → index + 1` map built by `_processCitations`. -/
def buildSourceMap (sources : List InlineSourceRec) : List (List Char × Nat) :=
  buildMapGo sources 0 []

/-- Decimal rendering of a citation number. -/
def natToChars (n : Nat) : List Char := (toString n).toList

/-- The replacement emitted for a resolved citation marker. -/
def supTag (id1 : List Char) (n : Nat) : List Char :=
  "<sup class=\"citation\" data-source=\"".toList ++ id1 ++ "\">[".toList ++
  natToChars n ++ "]</sup>".toList

/-- The literal marker text `:cite[id]`. -/
def citeLit (id1 : List Char) : List Char := ":cite[".toList ++ id1 ++ [']']

/-- Matcher for one citation marker `:cite[id]` (`id` one or more
non-`]` characters): a mapped id is replaced by its numbered superscript,
an unmapped id is passed through as the literal match. -/
def mCite (sm : List (List Char × Nat)) (s : List Char) : Option (List Char × List Char) :=
  if (":cite[".toList).isPrefixOf s then
    match (s.drop 6).takeWhile (fun x => x ≠ ']'), (s.drop 6).dropWhile (fun x => x ≠ ']') with
    | id1h :: id1t, ']' :: r2 =>
      match mapGet sm (id1h :: id1t) with
      | some n => some (supTag (id1h :: id1t) n, r2)
      | none => some (citeLit (id1h :: id1t), r2)
    | _, _ => none
  else none

/-- `_processCitations` applied to a non-null source list. -/
def processCitations (sources : List InlineSourceRec) (content : List Char) : List Char :=
  scanRep (mCite (buildSourceMap sources)) content.length content

/-! ## Proof-layer definitions

The per-chunk processing (decode, append to the pending buffer, split on
newlines, process complete lines) is later shown to equal a per-character —
and then per-byte — fold, from which invariance under re-chunking follows;
the predicates below state the accumulator invariants the claims rely on. -/

/-- Per-character view of the buffering loop: a newline processes the
pending buffer as one complete line, any other character is appended. -/
def charStep : TextRes → Char → TextRes
  | TextRes.cont buf a, c =>
    if c = '\n' then
      match lineStep a buf with
      | LineRes.cont a2 => TextRes.cont [] a2
      | LineRes.halt o => TextRes.halt o
    else TextRes.cont (buf ++ [c]) a
  | s, _ => s

/-- Per-byte view: feed the decoder one byte and process the decoded
characters. -/
def byteStep : ByteRes → Nat → ByteRes
  | ByteRes.cont d buf a, b =>
    let p := decFeed d b
    match p.2.foldl charStep (TextRes.cont buf a) with
    | TextRes.cont buf2 a2 => ByteRes.cont p.1 buf2 a2
    | TextRes.halt o => ByteRes.halt o
  | s, _ => s

/-- The pending buffer never holds a newline. -/
def bufOk : TextRes → Prop
  | TextRes.cont buf _ => '\n' ∉ buf
  | TextRes.halt _ => True

/-- Decoder state plus pending buffer invariant at the byte level. -/
def bufOkB : ByteRes → Prop
  | ByteRes.cont _ buf _ => '\n' ∉ buf
  | ByteRes.halt _ => True

/-- A concrete instance of C1: a stream split mid-line and in the middle of
the UTF-8 encoding of a multi-byte character. -/
def c1Bytes : List Nat :=
  utf8Enc (("event: assistant_write\ndata: \x7b\"content\":\"héllo\"\x7d\n\n" ++
    "event: done\ndata: \x7b\x7d\n\n").toList)

/-- The same bytes split into three chunks, the first boundary landing
inside the two-byte encoding of `é`. -/
def c1Chunks : List (List Nat) := [c1Bytes.take 40, (c1Bytes.drop 40).take 9, c1Bytes.drop 49]

/-- The delta carried by an `onChunk` record. -/
def deltaOfCb : CbEvent → Option (List Char)
  | CbEvent.chunk d _ _ => some d
  | _ => none

/-- The record carried by an `onSource` record. -/
def srcOfCb : CbEvent → Option Json
  | CbEvent.src s => some s
  | _ => none

/-- Terminal callbacks: `onComplete` or `onError`. -/
def isTerminalCb : CbEvent → Bool
  | CbEvent.complete _ => true
  | CbEvent.fatal _ => true
  | _ => false

/-- Is this classification the `done` event? -/
def isDoneEv : ProtocolEvent → Bool
  | ProtocolEvent.done => true
  | _ => false

/-- Is this classification a `StreamError` event? -/
def isStreamErrEv : ProtocolEvent → Bool
  | ProtocolEvent.streamError _ => true
  | _ => false

/-- The ordered deltas passed to `onChunk` so far. -/
def traceDeltas (tr : List CbEvent) : List (List Char) := tr.filterMap deltaOfCb

/-- The ordered records passed to `onSource` so far. -/
def traceSources (tr : List CbEvent) : List Json := tr.filterMap srcOfCb

/-- A trace with no terminal callback. -/
def cleanTraceB (tr : List CbEvent) : Bool := tr.all (fun e => !isTerminalCb e)

/-- No `done` classification among the events. -/
def noDoneB (evs : List ProtocolEvent) : Bool := evs.all (fun e => !isDoneEv e)

/-- No `StreamError` classification among the events. -/
def noStreamErrB (evs : List ProtocolEvent) : Bool := evs.all (fun e => !isStreamErrEv e)

/-- Invariant of a running accumulator. -/
def accInv (a : Acc) : Prop :=
  a.content = (traceDeltas a.trace).flatten ∧
  a.sources = traceSources a.trace ∧
  cleanTraceB a.trace = true ∧
  noDoneB a.events = true ∧
  noStreamErrB a.events = true

/-- Invariant of a terminal outcome: a `done`-terminated stream has a
`done` classification and exactly one terminal callback — the final
`onComplete` with its result; a failed stream has a `StreamError`
classification and no terminal callback yet (`onError` is appended by the
outer catch). -/
def outcomeInv : Outcome → Prop
  | Outcome.ok r ev tr =>
    (∃ t0, tr = t0 ++ [CbEvent.complete r] ∧ cleanTraceB t0 = true ∧
      r.content = (traceDeltas t0).flatten) ∧ noDoneB ev = false
  | Outcome.fail _ ev tr =>
    cleanTraceB tr = true ∧ noStreamErrB ev = false

/-- Invariant of a line-processing result. -/
def lineInv : LineRes → Prop
  | LineRes.cont a => accInv a
  | LineRes.halt o => outcomeInv o

/-- Invariant of a processor state. -/
def resInv : TextRes → Prop
  | TextRes.cont _ a => accInv a
  | TextRes.halt o => outcomeInv o

/-- A concrete stream for the C6 witness: one delta, then a fatal error. -/
def c6Chunks : List (List Char) :=
  [("event: assistant_write\ndata: \x7b\"content\":\"Hi\"\x7d\n\n").toList,
   ("event: error\ndata: \x7b\"message\":\"boom\"\x7d\n\n").toList]

/-- A concrete truncated stream for the C3 witness: two deltas arriving in
two chunks, a source record, and no `done`. -/
def c3Chunks : List (List Char) :=
  [("event: assistant_write\ndata: \x7b\"content\":\"Hel\"\x7d\n").toList,
   ("data: \x7b\"content\":\"lo\"\x7d\nevent: message_source\ndata: \x7b\"sourceId\":\"a\"\x7d\n").toList]

/-- The condition under which one `assistant_write` payload overwrites the
recorded `messageId`: the payload parses to a non-null JSON value carrying
a truthy `content` and a truthy `messageId`. -/
def suppliesMessageId (p : List Char) (mv : Json) : Prop :=
  ∃ v cv, jsonParse p = Except.ok v ∧ isNull v = false ∧
    getField v ("content".toList) = some cv ∧ truthy cv = true ∧
    getField v ("messageId".toList) = some mv ∧ truthy mv = true

/-- A matcher that always consumes at least one character on success. -/
def scanConsumes (matchAt : List Char → Option (List Char × List Char)) : Prop :=
  ∀ s rep after, matchAt s = some (rep, after) → after.length < s.length

/-- Text that contains no start of a citation marker. -/
def citeFreeB : List Char → Bool
  | [] => true
  | c :: rest => !((":cite[".toList).isPrefixOf (c :: rest)) && citeFreeB rest

/-- The ordered sources used by the C8 witness. -/
def c8Sources : List InlineSourceRec :=
  [{ sourceId := "a".toList, documentId := "d1".toList, documentName := "DocA".toList, page := none },
   { sourceId := "b".toList, documentId := "d2".toList, documentName := "DocB".toList, page := none },
   { sourceId := "c".toList, documentId := "d3".toList, documentName := "DocC".toList, page := none }]

/-- Each needle occurs in the haystack, in the given left-to-right order,
scanning left to right without overlap. -/
def containsInOrder : List Char → List (List Char) → Bool
  | _, [] => true
  | hay, n :: ns =>
    match splitAtPat n false hay with
    | some p => containsInOrder p.2 ns
    | none => false

/-! ## Theorems -/

theorem foldl_charStep_halt (o : Outcome) (text : List Char) :
    text.foldl charStep (TextRes.halt o) = TextRes.halt o := by
  induction text with
  | nil => rfl
  | cons c rest ih => simpa [charStep] using ih

theorem foldl_byteStep_halt (o : Outcome) (bytes : List Nat) :
    bytes.foldl byteStep (ByteRes.halt o) = ByteRes.halt o := by
  induction bytes with
  | nil => rfl
  | cons b rest ih => simpa [byteStep] using ih

theorem splitNl_ne_nil (l : List Char) : splitNl l ≠ [] := by
  cases l with
  | nil => simp [splitNl]
  | cons c rest =>
    simp only [splitNl]
    split
    · simp
    · split <;> simp

theorem splitNl_no_nl (l : List Char) (h : '\n' ∉ l) : splitNl l = [l] := by
  induction l with
  | nil => rfl
  | cons c rest ih =>
    have hc : c ≠ '\n' := fun hc => h (hc ▸ List.mem_cons_self c rest)
    have hr : '\n' ∉ rest := fun hr => h (List.mem_cons_of_mem c hr)
    simp only [splitNl, if_neg hc, ih hr]

theorem splitNl_append_nl (xs ys : List Char) (h : '\n' ∉ xs) :
    splitNl (xs ++ '\n' :: ys) = xs :: splitNl ys := by
  induction xs with
  | nil => simp [splitNl]
  | cons c rest ih =>
    have hc : c ≠ '\n' := fun hc => h (hc ▸ List.mem_cons_self c rest)
    have hr : '\n' ∉ rest := fun hr => h (List.mem_cons_of_mem c hr)
    rw [List.cons_append]
    simp only [splitNl, if_neg hc, ih hr]

theorem getLastD_irrel {α : Type} : ∀ (l : List α), l ≠ [] → ∀ d1 d2 : α,
    l.getLastD d1 = l.getLastD d2
  | [], h, _, _ => absurd rfl h
  | [_], _, _, _ => rfl
  | x :: y :: xs, _, d1, d2 =>
    (List.getLastD_cons d1 x (y :: xs)).trans (List.getLastD_cons d2 x (y :: xs)).symm

theorem dropLast_cons_ne {α : Type} (x : α) (l : List α) (h : l ≠ []) :
    (x :: l).dropLast = x :: l.dropLast := by
  cases l with
  | nil => exact absurd rfl h
  | cons y ys => rfl

/-- The per-chunk text processing equals the per-character fold, when the
pending buffer holds no newline (an invariant of the loop). -/
theorem textChunkStep_cont (buf : List Char) (a : Acc) (text : List Char) :
    textChunkStep (TextRes.cont buf a) text =
      (match processLines a (splitNl (buf ++ text)).dropLast with
       | LineRes.cont a2 => TextRes.cont ((splitNl (buf ++ text)).getLastD []) a2
       | LineRes.halt o => TextRes.halt o) := rfl

theorem textChunkStep_eq_foldl (text : List Char) :
    ∀ (buf : List Char) (a : Acc), '\n' ∉ buf →
    textChunkStep (TextRes.cont buf a) text = text.foldl charStep (TextRes.cont buf a) := by
  induction text with
  | nil =>
    intro buf a hb
    rw [textChunkStep_cont, List.foldl_nil, List.append_nil, splitNl_no_nl buf hb]
    simp [processLines]
  | cons c rest ih =>
    intro buf a hb
    by_cases hc : c = '\n'
    · subst hc
      have hne := splitNl_ne_nil rest
      rw [textChunkStep_cont, splitNl_append_nl buf rest hb,
        dropLast_cons_ne buf (splitNl rest) hne, List.getLastD_cons, List.foldl_cons]
      have hcs : charStep (TextRes.cont buf a) '\n' =
          (match lineStep a buf with
           | LineRes.cont a2 => TextRes.cont [] a2
           | LineRes.halt o => TextRes.halt o) := by
        simp [charStep]
      cases hls : lineStep a buf with
      | cont a2 =>
        rw [hcs, hls, ← ih [] a2 (by simp), textChunkStep_cont, List.nil_append,
          getLastD_irrel (splitNl rest) hne buf []]
        simp only [processLines, hls]
      | halt o =>
        rw [hcs, hls, foldl_charStep_halt]
        simp only [processLines, hls]
    · have hb2 : '\n' ∉ buf ++ [c] := by
        intro hmem
        rcases List.mem_append.1 hmem with h1 | h1
        · exact hb h1
        · exact hc (List.mem_singleton.1 h1).symm
      have heq : textChunkStep (TextRes.cont buf a) (c :: rest) =
          textChunkStep (TextRes.cont (buf ++ [c]) a) rest := by
        rw [textChunkStep_cont, textChunkStep_cont, List.append_cons]
      have hcs : charStep (TextRes.cont buf a) c = TextRes.cont (buf ++ [c]) a := by
        simp [charStep, hc]
      rw [heq, ih (buf ++ [c]) a hb2, List.foldl_cons, hcs]

theorem bufOk_charStep (s : TextRes) (c : Char) (h : bufOk s) : bufOk (charStep s c) := by
  cases s with
  | halt o => simpa [charStep] using h
  | cont buf a =>
    by_cases hc : c = '\n'
    · subst hc
      simp only [charStep, if_pos rfl]
      cases lineStep a buf <;> simp [bufOk]
    · simp only [charStep, if_neg hc, bufOk]
      intro hmem
      rcases List.mem_append.1 hmem with h1 | h1
      · exact h h1
      · exact hc (List.mem_singleton.1 h1).symm

theorem bufOk_foldl_charStep (text : List Char) (s : TextRes) (h : bufOk s) :
    bufOk (text.foldl charStep s) := by
  induction text generalizing s with
  | nil => exact h
  | cons c rest ih => exact ih _ (bufOk_charStep s c h)

theorem textChunkStep_eq_foldl_any (s : TextRes) (text : List Char) (h : bufOk s) :
    textChunkStep s text = text.foldl charStep s := by
  cases s with
  | cont buf a => exact textChunkStep_eq_foldl text buf a h
  | halt o => simp [textChunkStep, foldl_charStep_halt]

theorem bufOk_textChunkStep (s : TextRes) (text : List Char) (h : bufOk s) :
    bufOk (textChunkStep s text) := by
  rw [textChunkStep_eq_foldl_any s text h]
  exact bufOk_foldl_charStep text s h

/-- Folding the chunk-level step over a chunk list equals folding the
character-level step over the concatenated text. -/
theorem foldl_textChunkStep_flatten (chunks : List (List Char)) (s : TextRes) (h : bufOk s) :
    chunks.foldl textChunkStep s = chunks.flatten.foldl charStep s := by
  induction chunks generalizing s with
  | nil => rfl
  | cons c cks ih =>
    rw [List.foldl_cons, List.flatten_cons, List.foldl_append,
      ← textChunkStep_eq_foldl_any s c h]
    exact ih _ (bufOk_textChunkStep s c h)

/-- The per-chunk byte processing equals the per-byte fold. -/
theorem byteChunkStep_eq_foldl (bytes : List Nat) :
    ∀ (d : DecState) (buf : List Char) (a : Acc), '\n' ∉ buf →
    byteChunkStep (ByteRes.cont d buf a) bytes = bytes.foldl byteStep (ByteRes.cont d buf a) := by
  induction bytes with
  | nil =>
    intro d buf a hb
    simp only [byteChunkStep, decodeChunkBytes, List.foldl_nil]
    rw [textChunkStep_eq_foldl_any (TextRes.cont buf a) [] hb]
    rfl
  | cons b bs ih =>
    intro d buf a hb
    simp only [byteChunkStep, decodeChunkBytes, List.foldl_cons]
    rw [textChunkStep_eq_foldl_any (TextRes.cont buf a) _ hb, List.foldl_append]
    cases hm : (decFeed d b).2.foldl charStep (TextRes.cont buf a) with
    | cont buf2 a2 =>
      have hb2 : '\n' ∉ buf2 := by
        have := bufOk_foldl_charStep (decFeed d b).2 (TextRes.cont buf a) hb
        rw [hm] at this
        exact this
      have hbs : byteStep (ByteRes.cont d buf a) b = ByteRes.cont (decFeed d b).1 buf2 a2 := by
        simp [byteStep, hm]
      rw [hbs, ← ih (decFeed d b).1 buf2 a2 hb2]
      simp only [byteChunkStep]
      rw [textChunkStep_eq_foldl_any (TextRes.cont buf2 a2) _ hb2]
    | halt o =>
      have hbs : byteStep (ByteRes.cont d buf a) b = ByteRes.halt o := by
        simp [byteStep, hm]
      rw [hbs, foldl_charStep_halt, foldl_byteStep_halt]

theorem byteChunkStep_eq_foldl_any (s : ByteRes) (bytes : List Nat) (h : bufOkB s) :
    byteChunkStep s bytes = bytes.foldl byteStep s := by
  cases s with
  | cont d buf a => exact byteChunkStep_eq_foldl bytes d buf a h
  | halt o => simp [byteChunkStep, foldl_byteStep_halt]

theorem bufOkB_byteChunkStep (s : ByteRes) (bytes : List Nat) (h : bufOkB s) :
    bufOkB (byteChunkStep s bytes) := by
  rw [byteChunkStep_eq_foldl_any s bytes h]
  induction bytes generalizing s with
  | nil => exact h
  | cons b bs ih =>
    rw [List.foldl_cons]
    refine ih _ ?_
    cases s with
    | halt o => simpa [byteStep] using h
    | cont d buf a =>
      simp only [byteStep]
      cases hm : (decFeed d b).2.foldl charStep (TextRes.cont buf a) with
      | cont buf2 a2 =>
        have := bufOk_foldl_charStep (decFeed d b).2 (TextRes.cont buf a) h
        rw [hm] at this
        simpa [bufOkB] using this
      | halt o => simp [bufOkB]

/-- `runBytes` is the per-byte fold over the concatenation of the chunks. -/
theorem runBytes_flatten (chunks : List (List Nat)) :
    runBytes chunks = chunks.flatten.foldl byteStep (ByteRes.cont decInit [] initAcc) := by
  have h0 : bufOkB (ByteRes.cont decInit [] initAcc) := by simp [bufOkB]
  unfold runBytes
  generalize hs : ByteRes.cont decInit [] initAcc = s at h0
  clear hs
  induction chunks generalizing s with
  | nil => rfl
  | cons c cks ih =>
    rw [List.foldl_cons, List.flatten_cons, List.foldl_append,
      ← byteChunkStep_eq_foldl_any s c h0]
    exact ih _ (bufOkB_byteChunkStep s c h0)

/-- C1 — Chunk-segmentation invariance: for every byte sequence and every
split of it into successive chunks (including mid-line and mid-multibyte
splits), `processStream` produces the same classified protocol events, the
same callback invocations, and the same final result (or raised error) as
when the whole sequence arrives as one chunk. -/
theorem chunk_segmentation_invariance (css : List (List Nat)) (bs : List Nat)
    (h : css.flatten = bs) :
    processStream css = processStream [bs] := by
  unfold processStream
  rw [runBytes_flatten, runBytes_flatten, h]
  simp

theorem chunk_segmentation_invariance_witness :
    c1Chunks.flatten = c1Bytes ∧ processStream c1Chunks = processStream [c1Bytes] :=
  ⟨by decide, chunk_segmentation_invariance c1Chunks c1Bytes (by decide)⟩

@[simp] theorem traceDeltas_nil : traceDeltas [] = [] := rfl

@[simp] theorem traceDeltas_chunk (d x : List Char) (m : Option Json) (tr : List CbEvent) :
    traceDeltas (CbEvent.chunk d x m :: tr) = d :: traceDeltas tr := rfl

@[simp] theorem traceDeltas_refs (r : Json) (tr : List CbEvent) :
    traceDeltas (CbEvent.refs r :: tr) = traceDeltas tr := rfl

@[simp] theorem traceDeltas_src (s : Json) (tr : List CbEvent) :
    traceDeltas (CbEvent.src s :: tr) = traceDeltas tr := rfl

@[simp] theorem traceDeltas_complete (r : StreamResult) (tr : List CbEvent) :
    traceDeltas (CbEvent.complete r :: tr) = traceDeltas tr := rfl

@[simp] theorem traceDeltas_fatal (m : List Char) (tr : List CbEvent) :
    traceDeltas (CbEvent.fatal m :: tr) = traceDeltas tr := rfl

@[simp] theorem traceDeltas_append (t1 t2 : List CbEvent) :
    traceDeltas (t1 ++ t2) = traceDeltas t1 ++ traceDeltas t2 :=
  List.filterMap_append t1 t2 deltaOfCb

@[simp] theorem traceSources_nil : traceSources [] = [] := rfl

@[simp] theorem traceSources_chunk (d x : List Char) (m : Option Json) (tr : List CbEvent) :
    traceSources (CbEvent.chunk d x m :: tr) = traceSources tr := rfl

@[simp] theorem traceSources_refs (r : Json) (tr : List CbEvent) :
    traceSources (CbEvent.refs r :: tr) = traceSources tr := rfl

@[simp] theorem traceSources_src (s : Json) (tr : List CbEvent) :
    traceSources (CbEvent.src s :: tr) = s :: traceSources tr := rfl

@[simp] theorem traceSources_complete (r : StreamResult) (tr : List CbEvent) :
    traceSources (CbEvent.complete r :: tr) = traceSources tr := rfl

@[simp] theorem traceSources_fatal (m : List Char) (tr : List CbEvent) :
    traceSources (CbEvent.fatal m :: tr) = traceSources tr := rfl

@[simp] theorem traceSources_append (t1 t2 : List CbEvent) :
    traceSources (t1 ++ t2) = traceSources t1 ++ traceSources t2 :=
  List.filterMap_append t1 t2 srcOfCb

@[simp] theorem cleanTraceB_nil : cleanTraceB [] = true := rfl

@[simp] theorem cleanTraceB_cons (e : CbEvent) (tr : List CbEvent) :
    cleanTraceB (e :: tr) = (!isTerminalCb e && cleanTraceB tr) := rfl

@[simp] theorem cleanTraceB_append (t1 t2 : List CbEvent) :
    cleanTraceB (t1 ++ t2) = (cleanTraceB t1 && cleanTraceB t2) :=
  List.all_append

@[simp] theorem noDoneB_nil : noDoneB [] = true := rfl

@[simp] theorem noDoneB_cons (e : ProtocolEvent) (evs : List ProtocolEvent) :
    noDoneB (e :: evs) = (!isDoneEv e && noDoneB evs) := rfl

@[simp] theorem noDoneB_append (e1 e2 : List ProtocolEvent) :
    noDoneB (e1 ++ e2) = (noDoneB e1 && noDoneB e2) :=
  List.all_append

@[simp] theorem noStreamErrB_nil : noStreamErrB [] = true := rfl

@[simp] theorem noStreamErrB_cons (e : ProtocolEvent) (evs : List ProtocolEvent) :
    noStreamErrB (e :: evs) = (!isStreamErrEv e && noStreamErrB evs) := rfl

@[simp] theorem noStreamErrB_append (e1 e2 : List ProtocolEvent) :
    noStreamErrB (e1 ++ e2) = (noStreamErrB e1 && noStreamErrB e2) :=
  List.all_append

@[simp] theorem isTerminalCb_chunk (d x : List Char) (m : Option Json) :
    isTerminalCb (CbEvent.chunk d x m) = false := rfl

@[simp] theorem isTerminalCb_refs (r : Json) : isTerminalCb (CbEvent.refs r) = false := rfl

@[simp] theorem isTerminalCb_src (s : Json) : isTerminalCb (CbEvent.src s) = false := rfl

@[simp] theorem isTerminalCb_complete (r : StreamResult) :
    isTerminalCb (CbEvent.complete r) = true := rfl

@[simp] theorem isTerminalCb_fatal (m : List Char) :
    isTerminalCb (CbEvent.fatal m) = true := rfl

@[simp] theorem isDoneEv_contentDelta (p : List Char) :
    isDoneEv (ProtocolEvent.contentDelta p) = false := rfl

@[simp] theorem isDoneEv_legacyReferences (p : List Char) :
    isDoneEv (ProtocolEvent.legacyReferences p) = false := rfl

@[simp] theorem isDoneEv_inlineSource (p : List Char) :
    isDoneEv (ProtocolEvent.inlineSource p) = false := rfl

@[simp] theorem isDoneEv_done : isDoneEv ProtocolEvent.done = true := rfl

@[simp] theorem isDoneEv_streamError (p : List Char) :
    isDoneEv (ProtocolEvent.streamError p) = false := rfl

@[simp] theorem isDoneEv_unknown (n : Option (List Char)) (p : List Char) :
    isDoneEv (ProtocolEvent.unknown n p) = false := rfl

@[simp] theorem isStreamErrEv_contentDelta (p : List Char) :
    isStreamErrEv (ProtocolEvent.contentDelta p) = false := rfl

@[simp] theorem isStreamErrEv_legacyReferences (p : List Char) :
    isStreamErrEv (ProtocolEvent.legacyReferences p) = false := rfl

@[simp] theorem isStreamErrEv_inlineSource (p : List Char) :
    isStreamErrEv (ProtocolEvent.inlineSource p) = false := rfl

@[simp] theorem isStreamErrEv_done : isStreamErrEv ProtocolEvent.done = false := rfl

@[simp] theorem isStreamErrEv_streamError (p : List Char) :
    isStreamErrEv (ProtocolEvent.streamError p) = true := rfl

@[simp] theorem isStreamErrEv_unknown (n : Option (List Char)) (p : List Char) :
    isStreamErrEv (ProtocolEvent.unknown n p) = false := rfl

theorem accInv_init : accInv initAcc :=
  ⟨rfl, rfl, rfl, rfl, rfl⟩

theorem rawAppend_inv (a : Acc) (d : List Char) (h : accInv a) : lineInv (rawAppend a d) := by
  obtain ⟨h1, h2, h3, h4, h5⟩ := h
  refine ⟨?_, ?_, ?_, ?_, ?_⟩ <;>
    simp [rawAppend, h1, h2, h3, h4, h5]

theorem awStep_inv (a : Acc) (d : List Char) (h : accInv a) : lineInv (awStep a d) := by
  obtain ⟨h1, h2, h3, h4, h5⟩ := h
  unfold awStep
  cases jsonParse d with
  | error e => exact rawAppend_inv a d ⟨h1, h2, h3, h4, h5⟩
  | ok v =>
    by_cases hn : isNull v = true
    · simp only [hn, if_true]
      exact rawAppend_inv a d ⟨h1, h2, h3, h4, h5⟩
    · rw [Bool.not_eq_true] at hn
      simp only [hn, Bool.false_eq_true, if_false]
      cases getField v ("content".toList) with
      | none =>
        refine ⟨?_, ?_, ?_, ?_, ?_⟩ <;> simp [h1, h2, h3, h4, h5]
      | some cv =>
        by_cases hc : truthy cv = true
        · simp only [hc, if_true]
          refine ⟨?_, ?_, ?_, ?_, ?_⟩ <;> simp [h1, h2, h3, h4, h5]
        · rw [Bool.not_eq_true] at hc
          simp only [hc, Bool.false_eq_true, if_false]
          refine ⟨?_, ?_, ?_, ?_, ?_⟩ <;> simp [h1, h2, h3, h4, h5]

theorem refStep_inv (a : Acc) (d : List Char) (h : accInv a) : lineInv (refStep a d) := by
  obtain ⟨h1, h2, h3, h4, h5⟩ := h
  unfold refStep
  cases jsonParse d <;> (refine ⟨?_, ?_, ?_, ?_, ?_⟩ <;> simp [h1, h2, h3, h4, h5])

theorem srcStep_inv (a : Acc) (d : List Char) (h : accInv a) : lineInv (srcStep a d) := by
  obtain ⟨h1, h2, h3, h4, h5⟩ := h
  unfold srcStep
  cases jsonParse d <;> (refine ⟨?_, ?_, ?_, ?_, ?_⟩ <;> simp [h1, h2, h3, h4, h5])

theorem errStep_inv (a : Acc) (d : List Char) (h : accInv a) : lineInv (errStep a d) := by
  obtain ⟨h1, h2, h3, h4, h5⟩ := h
  have hev : noStreamErrB (a.events ++ [ProtocolEvent.streamError d]) = false := by
    simp
  unfold errStep
  cases jsonParse d with
  | ok v =>
    dsimp only
    by_cases hn : isNull v = true
    · simp only [hn, if_true]
      exact ⟨h3, hev⟩
    · rw [Bool.not_eq_true] at hn
      simp only [hn, Bool.false_eq_true, if_false]
      split <;> exact ⟨h3, hev⟩
  | error em =>
    dsimp only
    split <;> exact ⟨h3, hev⟩

theorem dataStep_inv (a : Acc) (d : List Char) (h : accInv a) : lineInv (dataStep a d) := by
  obtain ⟨h1, h2, h3, h4, h5⟩ := h
  unfold dataStep
  split
  · exact awStep_inv a d ⟨h1, h2, h3, h4, h5⟩
  · split
    · exact refStep_inv a d ⟨h1, h2, h3, h4, h5⟩
    · split
      · exact srcStep_inv a d ⟨h1, h2, h3, h4, h5⟩
      · split
        · exact ⟨⟨a.trace, rfl, h3, h1⟩, by simp⟩
        · split
          · exact errStep_inv a d ⟨h1, h2, h3, h4, h5⟩
          · refine ⟨h1, h2, h3, ?_, ?_⟩ <;> simp [h4, h5]

theorem lineStep_inv (a : Acc) (l : List Char) (h : accInv a) : lineInv (lineStep a l) := by
  unfold lineStep
  dsimp only
  split
  · exact h
  · split
    · exact ⟨h.1, h.2.1, h.2.2.1, h.2.2.2.1, h.2.2.2.2⟩
    · split
      · exact h
      · split
        · exact dataStep_inv a _ h
        · exact h

theorem charStep_inv (s : TextRes) (c : Char) (h : resInv s) : resInv (charStep s c) := by
  cases s with
  | halt o => simpa [charStep] using h
  | cont buf a =>
    by_cases hc : c = '\n'
    · subst hc
      simp only [charStep, if_pos rfl]
      have hli := lineStep_inv a buf h
      cases hls : lineStep a buf with
      | cont a2 => rw [hls] at hli; exact hli
      | halt o => rw [hls] at hli; exact hli
    · simpa [charStep, hc] using h

theorem foldl_charStep_inv (text : List Char) (s : TextRes) (h : resInv s) :
    resInv (text.foldl charStep s) := by
  induction text generalizing s with
  | nil => exact h
  | cons c rest ih => exact ih _ (charStep_inv s c h)

/-- Combined reachability invariant of `runText`. -/
theorem runText_inv (cs : List (List Char)) : resInv (runText cs) ∧ bufOk (runText cs) := by
  unfold runText
  have h0 : resInv (TextRes.cont [] initAcc) ∧ bufOk (TextRes.cont [] initAcc) :=
    ⟨accInv_init, by simp [bufOk]⟩
  generalize hs : TextRes.cont ([] : List Char) initAcc = s at h0
  clear hs
  induction cs generalizing s with
  | nil => exact h0
  | cons c cks ih =>
    rw [List.foldl_cons]
    refine ih _ ⟨?_, bufOk_textChunkStep s c h0.2⟩
    rw [textChunkStep_eq_foldl_any s c h0.2]
    exact foldl_charStep_inv c s h0.1

theorem processText_cont (cs : List (List Char)) (buf : List Char) (a : Acc)
    (hr : runText cs = TextRes.cont buf a) :
    processText cs = (Except.ok (synthResult a), a.events,
      a.trace ++ [CbEvent.complete (synthResult a)]) := by
  unfold processText
  rw [hr]

theorem processText_ok (cs : List (List Char)) (r : StreamResult) (ev : List ProtocolEvent)
    (tr : List CbEvent) (hr : runText cs = TextRes.halt (Outcome.ok r ev tr)) :
    processText cs = (Except.ok r, ev, tr) := by
  unfold processText
  rw [hr]

theorem processText_fail (cs : List (List Char)) (m : List Char) (ev : List ProtocolEvent)
    (tr : List CbEvent) (hr : runText cs = TextRes.halt (Outcome.fail m ev tr)) :
    processText cs = (Except.error m, ev, tr ++ [CbEvent.fatal m]) := by
  unfold processText
  rw [hr]

/-- C6 — Terminal-callback exclusivity: per stream (callbacks supplied and
non-throwing, reads drawn from a chunk list), exactly one terminal callback
fires and it is the last: a normal return fires `onComplete` once with the
returned result, a raised error fires `onError` once with the raised
message; all earlier callback invocations are non-terminal
(`onChunk`/`onReferences`/`onSource`). -/
theorem terminal_callback_exclusivity (cs : List (List Char)) :
    (∀ r ev tr, processText cs = (Except.ok r, ev, tr) →
       ∃ t0, tr = t0 ++ [CbEvent.complete r] ∧ cleanTraceB t0 = true) ∧
    (∀ m ev tr, processText cs = (Except.error m, ev, tr) →
       ∃ t0, tr = t0 ++ [CbEvent.fatal m] ∧ cleanTraceB t0 = true) := by
  have hinv := (runText_inv cs).1
  constructor
  · intro r ev tr heq
    cases hr : runText cs with
    | cont buf a =>
      rw [processText_cont cs buf a hr] at heq
      rw [hr] at hinv
      simp only [Prod.mk.injEq, Except.ok.injEq] at heq
      obtain ⟨hr1, _, hr3⟩ := heq
      exact ⟨a.trace, by rw [← hr3, hr1], hinv.2.2.1⟩
    | halt o =>
      cases o with
      | ok r2 ev2 tr2 =>
        rw [processText_ok cs r2 ev2 tr2 hr] at heq
        rw [hr] at hinv
        simp only [Prod.mk.injEq, Except.ok.injEq] at heq
        obtain ⟨hr1, _, hr3⟩ := heq
        obtain ⟨⟨t0, ht, hc, _⟩, _⟩ := hinv
        exact ⟨t0, by rw [← hr3, ht, hr1], hc⟩
      | fail m2 ev2 tr2 =>
        rw [processText_fail cs m2 ev2 tr2 hr] at heq
        simp at heq
  · intro m ev tr heq
    cases hr : runText cs with
    | cont buf a =>
      rw [processText_cont cs buf a hr] at heq
      simp at heq
    | halt o =>
      cases o with
      | ok r2 ev2 tr2 =>
        rw [processText_ok cs r2 ev2 tr2 hr] at heq
        simp at heq
      | fail m2 ev2 tr2 =>
        rw [processText_fail cs m2 ev2 tr2 hr] at heq
        rw [hr] at hinv
        simp only [Prod.mk.injEq, Except.error.injEq] at heq
        obtain ⟨hr1, _, hr3⟩ := heq
        exact ⟨tr2, by rw [← hr3, hr1], hinv.1⟩

theorem terminal_callback_exclusivity_witness :
    ∃ t0, (processText c6Chunks).2.2 = t0 ++ [CbEvent.fatal ("boom".toList)] ∧
      cleanTraceB t0 = true :=
  (terminal_callback_exclusivity c6Chunks).2 ("boom".toList)
    (processText c6Chunks).2.1 (processText c6Chunks).2.2 rfl

/-- C3 — Truncated stream is implicit completion: when the chunk source is
exhausted with no `done` (and no fatal `StreamError`) classified,
`processStream` returns successfully; the result's content is the
concatenation, in arrival order, of all deltas passed to `onChunk`, its
sources field is the arrival-ordered list passed to `onSource` (null when
empty), and `onComplete` fires exactly once, with that result, after the
non-terminal callbacks. -/
theorem truncated_stream_completes (cs : List (List Char))
    (hdone : noDoneB (processText cs).2.1 = true)
    (herr : noStreamErrB (processText cs).2.1 = true) :
    ∃ r ev tr, processText cs = (Except.ok r, ev, tr ++ [CbEvent.complete r]) ∧
      r.content = (traceDeltas tr).flatten ∧
      r.sources = (if (traceSources tr).length > 0 then some (traceSources tr) else none) ∧
      cleanTraceB tr = true := by
  have hinv := (runText_inv cs).1
  cases hr : runText cs with
  | cont buf a =>
    have hp := processText_cont cs buf a hr
    rw [hr] at hinv
    obtain ⟨h1, h2, h3, h4, h5⟩ := hinv
    refine ⟨synthResult a, a.events, a.trace, hp, ?_, ?_, h3⟩
    · simpa [synthResult] using h1
    · simp [synthResult, h2]
  | halt o =>
    cases o with
    | ok r2 ev2 tr2 =>
      rw [processText_ok cs r2 ev2 tr2 hr] at hdone
      rw [hr] at hinv
      rw [show ((Except.ok r2 : Except (List Char) StreamResult), ev2, tr2).2.1 = ev2 from rfl]
        at hdone
      rw [hinv.2] at hdone
      exact absurd hdone (by simp)
    | fail m2 ev2 tr2 =>
      rw [processText_fail cs m2 ev2 tr2 hr] at herr
      rw [hr] at hinv
      rw [show ((Except.error m2 : Except (List Char) StreamResult), ev2,
        tr2 ++ [CbEvent.fatal m2]).2.1 = ev2 from rfl] at herr
      rw [hinv.2] at herr
      exact absurd herr (by simp)

theorem truncated_stream_completes_witness :
    noDoneB (processText c3Chunks).2.1 = true ∧
    noStreamErrB (processText c3Chunks).2.1 = true ∧
    ∃ r ev tr, processText c3Chunks = (Except.ok r, ev, tr ++ [CbEvent.complete r]) ∧
      r.content = (traceDeltas tr).flatten ∧
      r.sources = (if (traceSources tr).length > 0 then some (traceSources tr) else none) ∧
      cleanTraceB tr = true :=
  ⟨by decide, by decide, truncated_stream_completes c3Chunks (by decide) (by decide)⟩

/-! ## Appending one event frame to a running stream

Helper lemmas evaluating the processing of a trailing `event:`/`data:`
frame whose payload is abstract, used by the claims about single protocol
events. -/

theorem isPrefixOf_nil_left (p : List Char) : List.isPrefixOf [] p = true := by
  cases p <;> rfl

theorem isPrefixOf_append_self (l t : List Char) : l.isPrefixOf (l ++ t) = true := by
  induction l with
  | nil => exact isPrefixOf_nil_left t
  | cons c rest ih => simp [List.isPrefixOf, ih]

theorem runText_append_single (cs : List (List Char)) (x : List Char) :
    runText (cs ++ [x]) = textChunkStep (runText cs) x := by
  unfold runText
  rw [List.foldl_append]
  rfl

/-- A trimmed line of the shape `data: <payload>` dispatches its payload. -/
theorem lineStep_data (a : Acc) (line p : List Char)
    (h : jsTrim line = "data: ".toList ++ p) :
    lineStep a line = dataStep a p := by
  unfold lineStep
  dsimp only
  rw [h]
  have h1 : ("data: ".toList ++ p) = [] ↔ False := by simp
  have h2 : ("event: ".toList).isPrefixOf ("data: ".toList ++ p) = false := rfl
  have h3 : ("id: ".toList).isPrefixOf ("data: ".toList ++ p) = false := rfl
  have h4 : ("data: ".toList).isPrefixOf ("data: ".toList ++ p) = true :=
    isPrefixOf_append_self _ _
  simp only [h1, h2, h3, h4, Bool.false_eq_true, if_false, if_true, ite_false, ite_true]
  rfl

/-- A successfully parsed `error` payload with a non-empty string `message`
different from `'Stream error'` fails the stream with exactly that
message. -/
theorem errStep_msg (a : Acc) (p s : List Char) (v : Json)
    (hp : jsonParse p = Except.ok v)
    (hm : getField v ("message".toList) = some (Json.str s))
    (hs : s ≠ []) (hs2 : s ≠ streamErrorMsg) :
    errStep a p = LineRes.halt
      (Outcome.fail s (a.events ++ [ProtocolEvent.streamError p]) a.trace) := by
  have hnull : isNull v = false := by
    cases v <;> first | rfl | (simp [getField] at hm)
  have htr : truthy (Json.str s) = true := by
    simp [truthy, List.isEmpty_iff, hs]
  unfold errStep
  rw [hp]
  dsimp only
  rw [hnull, hm]
  simp only [Bool.false_eq_true, if_false, htr, if_true, jsToString]
  rw [if_neg hs2]

/-- An `assistant_write` payload that fails to parse takes the raw-append
fallback. -/
theorem awStep_raw (a : Acc) (p e : List Char) (hp : jsonParse p = Except.error e) :
    awStep a p = rawAppend a p := by
  unfold awStep
  rw [hp]

theorem textChunkStep_two_lines (a : Acc) (l1 l2 : List Char)
    (h1 : '\n' ∉ l1) (h2 : '\n' ∉ l2) :
    textChunkStep (TextRes.cont [] a) (l1 ++ '\n' :: l2 ++ ['\n']) =
      (match processLines a [l1, l2] with
       | LineRes.cont a2 => TextRes.cont [] a2
       | LineRes.halt o => TextRes.halt o) := by
  rw [textChunkStep_cont]
  have hsh : ([] : List Char) ++ (l1 ++ '\n' :: l2 ++ ['\n']) =
      l1 ++ '\n' :: (l2 ++ '\n' :: []) := by simp
  rw [hsh, splitNl_append_nl l1 _ h1, splitNl_append_nl l2 [] h2]
  rfl

theorem textChunkStep_one_line (a : Acc) (l1 : List Char) (h1 : '\n' ∉ l1) :
    textChunkStep (TextRes.cont [] a) (l1 ++ ['\n']) =
      (match processLines a [l1] with
       | LineRes.cont a2 => TextRes.cont [] a2
       | LineRes.halt o => TextRes.halt o) := by
  rw [textChunkStep_cont]
  have hsh : ([] : List Char) ++ (l1 ++ ['\n']) = l1 ++ '\n' :: [] := by simp
  rw [hsh, splitNl_append_nl l1 [] h1]
  rfl

/-- C2 (amended) — Fatal error event: appending an
`event: error` / `data:` frame whose payload parses as JSON with a
non-empty string `message` different from the literal `'Stream error'`
makes the call fail with exactly that message, firing `onError` with it as
the one and only terminal callback; `onComplete` never fires. -/
theorem fatal_error_event (cs : List (List Char)) (a : Acc) (p s : List Char) (v : Json)
    (hrun : runText cs = TextRes.cont [] a)
    (hnl : '\n' ∉ p)
    (htrim : jsTrim ("data: ".toList ++ p) = "data: ".toList ++ p)
    (hp : jsonParse p = Except.ok v)
    (hm : getField v ("message".toList) = some (Json.str s))
    (hs : s ≠ []) (hs2 : s ≠ streamErrorMsg) :
    processText (cs ++ ["event: error\ndata: ".toList ++ p ++ ['\n']])
      = (Except.error s, a.events ++ [ProtocolEvent.streamError p],
         a.trace ++ [CbEvent.fatal s]) ∧
    cleanTraceB a.trace = true := by
  have hl1 : '\n' ∉ "event: error".toList := by decide
  have hl2 : '\n' ∉ "data: ".toList ++ p := by
    intro hmem
    rcases List.mem_append.1 hmem with h | h
    · revert h; decide
    · exact hnl h
  have hframe : "event: error\ndata: ".toList ++ p ++ ['\n'] =
      "event: error".toList ++ '\n' :: ("data: ".toList ++ p) ++ ['\n'] := rfl
  have hrt := runText_append_single cs ("event: error\ndata: ".toList ++ p ++ ['\n'])
  rw [hrun, hframe, textChunkStep_two_lines a _ _ hl1 hl2] at hrt
  have he1 : lineStep a ("event: error".toList) =
      LineRes.cont { a with currentEvent := some evError } := rfl
  have he2 : lineStep { a with currentEvent := some evError } ("data: ".toList ++ p) =
      dataStep { a with currentEvent := some evError } p := lineStep_data _ _ _ htrim
  have he3 : dataStep { a with currentEvent := some evError } p =
      errStep { a with currentEvent := some evError } p := rfl
  have he4 := errStep_msg { a with currentEvent := some evError } p s v hp hm hs hs2
  have hpl : processLines a ["event: error".toList, "data: ".toList ++ p] =
      LineRes.halt (Outcome.fail s (a.events ++ [ProtocolEvent.streamError p]) a.trace) := by
    show (match lineStep a ("event: error".toList) with
      | LineRes.cont a2 => processLines a2 ["data: ".toList ++ p]
      | r => r) = _
    rw [he1]
    show (match lineStep { a with currentEvent := some evError } ("data: ".toList ++ p) with
      | LineRes.cont a2 => processLines a2 []
      | r => r) = _
    rw [he2, he3, he4]
  rw [hpl] at hrt
  have hclean : cleanTraceB a.trace = true := by
    have hinv := (runText_inv cs).1
    rw [hrun] at hinv
    exact hinv.2.2.1
  exact ⟨processText_fail _ s _ a.trace hrt, hclean⟩

/-- C2, the claim as stated is refuted at a payload whose `message` field
is the empty string: the extracted field value is `""`, yet the call fails
with the raw payload text instead. -/
theorem fatal_error_event_counterexample :
    jsonParse ("\x7b\"message\":\"\"\x7d".toList)
      = Except.ok (Json.obj [("message".toList, Json.str [])]) ∧
    (processText [("event: error\ndata: \x7b\"message\":\"\"\x7d\n").toList]).1
      = Except.error ("\x7b\"message\":\"\"\x7d".toList) ∧
    (processText [("event: error\ndata: \x7b\"message\":\"\"\x7d\n").toList]).1
      ≠ Except.error [] := by
  refine ⟨rfl, rfl, ?_⟩
  intro h
  have h2 : ("\x7b\"message\":\"\"\x7d".toList) = ([] : List Char) := by
    have := (rfl : (processText [("event: error\ndata: \x7b\"message\":\"\"\x7d\n").toList]).1
      = Except.error ("\x7b\"message\":\"\"\x7d".toList))
    rw [this] at h
    exact Except.error.inj h
  exact absurd h2 (by decide)

theorem fatal_error_event_witness :
    jsonParse ("\x7b\"message\":\"boom\"\x7d".toList)
      = Except.ok (Json.obj [("message".toList, Json.str ("boom".toList))]) ∧
    processText [["event: error\ndata: ".toList ++ "\x7b\"message\":\"boom\"\x7d".toList ++ ['\n']].flatten]
      = (Except.error ("boom".toList),
         [ProtocolEvent.streamError ("\x7b\"message\":\"boom\"\x7d".toList)],
         [CbEvent.fatal ("boom".toList)]) := by
  constructor
  · rfl
  · have := (fatal_error_event [] initAcc ("\x7b\"message\":\"boom\"\x7d".toList)
      ("boom".toList) (Json.obj [("message".toList, Json.str ("boom".toList))])
      rfl (by decide) (by decide) rfl rfl (by decide) (by decide)).1
    simpa using this

/-- C4 — Raw-payload content fallback: appending an
`event: assistant_write` / `data:` frame whose payload is not valid JSON
appends the raw payload verbatim to the accumulated content and fires
`onChunk` with that raw string as the delta; the stream keeps running (no
event dropped, no error raised). -/
theorem raw_payload_fallback (cs : List (List Char)) (a : Acc) (p e : List Char)
    (hrun : runText cs = TextRes.cont [] a)
    (hnl : '\n' ∉ p)
    (htrim : jsTrim ("data: ".toList ++ p) = "data: ".toList ++ p)
    (hp : jsonParse p = Except.error e) :
    runText (cs ++ ["event: assistant_write\ndata: ".toList ++ p ++ ['\n']])
      = TextRes.cont [] { a with
          currentEvent := some evAssistantWrite,
          content := a.content ++ p,
          events := a.events ++ [ProtocolEvent.contentDelta p],
          trace := a.trace ++ [CbEvent.chunk p (a.content ++ p) a.messageId] } := by
  have hl1 : '\n' ∉ "event: assistant_write".toList := by decide
  have hl2 : '\n' ∉ "data: ".toList ++ p := by
    intro hmem
    rcases List.mem_append.1 hmem with h | h
    · revert h; decide
    · exact hnl h
  have hframe : "event: assistant_write\ndata: ".toList ++ p ++ ['\n'] =
      "event: assistant_write".toList ++ '\n' :: ("data: ".toList ++ p) ++ ['\n'] := rfl
  have hrt := runText_append_single cs
    ("event: assistant_write\ndata: ".toList ++ p ++ ['\n'])
  rw [hrun, hframe, textChunkStep_two_lines a _ _ hl1 hl2] at hrt
  have he1 : lineStep a ("event: assistant_write".toList) =
      LineRes.cont { a with currentEvent := some evAssistantWrite } := rfl
  have he2 : lineStep { a with currentEvent := some evAssistantWrite }
      ("data: ".toList ++ p) =
      dataStep { a with currentEvent := some evAssistantWrite } p := lineStep_data _ _ _ htrim
  have he3 : dataStep { a with currentEvent := some evAssistantWrite } p =
      awStep { a with currentEvent := some evAssistantWrite } p := rfl
  have he4 := awStep_raw { a with currentEvent := some evAssistantWrite } p e hp
  have hpl : processLines a ["event: assistant_write".toList, "data: ".toList ++ p] =
      LineRes.cont { a with
        currentEvent := some evAssistantWrite,
        content := a.content ++ p,
        events := a.events ++ [ProtocolEvent.contentDelta p],
        trace := a.trace ++ [CbEvent.chunk p (a.content ++ p) a.messageId] } := by
    show (match lineStep a ("event: assistant_write".toList) with
      | LineRes.cont a2 => processLines a2 ["data: ".toList ++ p]
      | r => r) = _
    rw [he1]
    show (match lineStep { a with currentEvent := some evAssistantWrite }
        ("data: ".toList ++ p) with
      | LineRes.cont a2 => processLines a2 []
      | r => r) = _
    rw [he2, he3, he4]
    rfl
  rw [hpl] at hrt
  exact hrt

theorem raw_payload_fallback_witness :
    jsonParse ("plain text".toList) = Except.error jsonErrTok ∧
    runText [["event: assistant_write\ndata: ".toList ++ "plain text".toList ++ ['\n']].flatten]
      = TextRes.cont [] { initAcc with
          currentEvent := some evAssistantWrite,
          content := "plain text".toList,
          events := [ProtocolEvent.contentDelta ("plain text".toList)],
          trace := [CbEvent.chunk ("plain text".toList) ("plain text".toList) none] } := by
  constructor
  · rfl
  · have := raw_payload_fallback [] initAcc ("plain text".toList) jsonErrTok
      rfl (by decide) (by decide) rfl
    simpa using this

/-- C10 — An `event: done` line alone never terminates the stream: any line
whose trimmed form is not a `data:` line leaves the machine running and
changes at most the recorded event name; a stream whose source ends right
after an `event: done` line (no subsequent `data:` line) completes via the
end-of-source path — the same synthesized result and single `onComplete`
as if the line had never arrived — never via the `done` branch. -/
theorem done_line_alone_never_terminates :
    (∀ (a : Acc) (l : List Char), ("data: ".toList).isPrefixOf (jsTrim l) = false →
       ∃ ce, lineStep a l = LineRes.cont { a with currentEvent := ce }) ∧
    (∀ (cs : List (List Char)) (a : Acc), runText cs = TextRes.cont [] a →
       processText (cs ++ [("event: done\n").toList]) = processText cs ∧
       processText cs = (Except.ok (synthResult a), a.events,
         a.trace ++ [CbEvent.complete (synthResult a)])) := by
  constructor
  · intro a l hnd
    unfold lineStep
    dsimp only
    by_cases h1 : jsTrim l = []
    · rw [if_pos h1]
      exact ⟨a.currentEvent, rfl⟩
    · rw [if_neg h1]
      by_cases h2 : ("event: ".toList).isPrefixOf (jsTrim l) = true
      · rw [if_pos h2]
        exact ⟨some (jsTrim ((jsTrim l).drop 7)), rfl⟩
      · rw [Bool.not_eq_true] at h2
        rw [h2]
        simp only [Bool.false_eq_true, if_false]
        by_cases h3 : ("id: ".toList).isPrefixOf (jsTrim l) = true
        · rw [if_pos h3]
          exact ⟨a.currentEvent, rfl⟩
        · rw [Bool.not_eq_true] at h3
          rw [h3, hnd]
          simp only [Bool.false_eq_true, if_false]
          exact ⟨a.currentEvent, rfl⟩
  · intro cs a hrun
    have hl1 : '\n' ∉ "event: done".toList := by decide
    have hframe : ("event: done\n").toList = "event: done".toList ++ ['\n'] := rfl
    have hrt := runText_append_single cs (("event: done\n").toList)
    rw [hrun, hframe, textChunkStep_one_line a _ hl1] at hrt
    have he1 : processLines a ["event: done".toList] =
        LineRes.cont { a with currentEvent := some evDone } := rfl
    rw [he1] at hrt
    have hp1 := processText_cont _ [] { a with currentEvent := some evDone } hrt
    have hp2 := processText_cont cs [] a hrun
    rw [hframe, hp1, hp2]
    exact ⟨rfl, rfl⟩

theorem done_line_alone_never_terminates_witness :
    processText ([("event: assistant_write\ndata: \x7b\"content\":\"Hi\"\x7d\n").toList] ++
        [("event: done\n").toList]) =
      processText [("event: assistant_write\ndata: \x7b\"content\":\"Hi\"\x7d\n").toList] ∧
    ("data: ".toList).isPrefixOf (jsTrim ("event: done".toList)) = false ∧
    ∃ ce, lineStep initAcc ("event: done".toList) = LineRes.cont { initAcc with currentEvent := ce } := by
  refine ⟨?_, by decide, ?_⟩
  · exact (done_line_alone_never_terminates.2
      [("event: assistant_write\ndata: \x7b\"content\":\"Hi\"\x7d\n").toList]
      { currentEvent := some evAssistantWrite, content := "Hi".toList, messageId := none,
        references := none, sources := [],
        events := [ProtocolEvent.contentDelta ("\x7b\"content\":\"Hi\"\x7d".toList)],
        trace := [CbEvent.chunk ("Hi".toList) ("Hi".toList) none] } rfl).1
  · exact done_line_alone_never_terminates.1 initAcc ("event: done".toList) (by decide)

/-- C5 (amended) — messageId update rule as implemented: processing one
`assistant_write` payload never terminates the stream, overwrites
`messageId` exactly when the payload supplies a truthy `messageId`
alongside a truthy `content` (the update sits inside the content guard),
and leaves it unchanged otherwise — in particular an event that supplies a
`messageId` but no truthy `content` does not update it. -/
theorem messageId_update_rule (a : Acc) (p : List Char) :
    ∃ a2, awStep a p = LineRes.cont a2 ∧
      (∀ mv, suppliesMessageId p mv → a2.messageId = some mv) ∧
      ((¬ ∃ mv, suppliesMessageId p mv) → a2.messageId = a.messageId) := by
  unfold awStep
  cases hp : jsonParse p with
  | error e =>
    refine ⟨_, rfl, ?_, fun _ => rfl⟩
    intro mv ⟨v, cv, hv, _⟩
    rw [hp] at hv
    exact absurd hv (by simp)
  | ok v =>
    dsimp only
    by_cases hn : isNull v = true
    · rw [if_pos hn]
      refine ⟨_, rfl, ?_, fun _ => rfl⟩
      intro mv ⟨v2, cv, hv2, hnull2, _⟩
      rw [hp] at hv2
      rw [Except.ok.inj hv2] at hn
      rw [hn] at hnull2
      exact absurd hnull2 (by simp)
    · rw [Bool.not_eq_true] at hn
      rw [hn]
      simp only [Bool.false_eq_true, if_false]
      cases hcf : getField v ("content".toList) with
      | none =>
        dsimp only
        refine ⟨_, rfl, ?_, fun _ => rfl⟩
        intro mv ⟨v2, cv, hv2, _, hcf2, _⟩
        rw [hp] at hv2
        rw [← Except.ok.inj hv2] at hcf2
        rw [hcf] at hcf2
        exact absurd hcf2 (by simp)
      | some cv =>
        dsimp only
        by_cases hct : truthy cv = true
        · rw [if_pos hct]
          cases hmf : getField v ("messageId".toList) with
          | none =>
            dsimp only
            refine ⟨_, rfl, ?_, fun _ => rfl⟩
            intro mv ⟨v2, cv2, hv2, _, _, _, hmf2, _⟩
            rw [hp] at hv2
            rw [← Except.ok.inj hv2] at hmf2
            rw [hmf] at hmf2
            exact absurd hmf2 (by simp)
          | some mv =>
            dsimp only
            by_cases hmt : truthy mv = true
            · rw [if_pos hmt]
              refine ⟨_, rfl, ?_, ?_⟩
              · intro mv2 ⟨v2, cv2, hv2, _, _, _, hmf2, _⟩
                rw [hp] at hv2
                rw [← Except.ok.inj hv2] at hmf2
                rw [hmf] at hmf2
                rw [Option.some.inj hmf2]
              · intro hno
                exact absurd ⟨mv, v, cv, hp, hn, hcf, hct, hmf, hmt⟩ hno
            · rw [Bool.not_eq_true] at hmt
              rw [hmt]
              simp only [Bool.false_eq_true, if_false]
              refine ⟨_, rfl, ?_, fun _ => rfl⟩
              intro mv2 ⟨v2, cv2, hv2, _, _, _, hmf2, hmt2⟩
              rw [hp] at hv2
              rw [← Except.ok.inj hv2] at hmf2
              rw [hmf] at hmf2
              rw [← Option.some.inj hmf2] at hmt2
              rw [hmt] at hmt2
              exact absurd hmt2 (by simp)
        · rw [Bool.not_eq_true] at hct
          rw [hct]
          simp only [Bool.false_eq_true, if_false]
          refine ⟨_, rfl, ?_, fun _ => rfl⟩
          intro mv ⟨v2, cv2, hv2, _, hcf2, hct2, _⟩
          rw [hp] at hv2
          rw [← Except.ok.inj hv2] at hcf2
          rw [hcf] at hcf2
          rw [← Option.some.inj hcf2] at hct2
          rw [hct] at hct2
          exact absurd hct2 (by simp)

theorem messageId_update_rule_witness :
    suppliesMessageId ("\x7b\"content\":\"x\",\"messageId\":\"m1\"\x7d".toList)
      (Json.str ("m1".toList)) ∧
    ∃ a2, awStep initAcc ("\x7b\"content\":\"x\",\"messageId\":\"m1\"\x7d".toList)
        = LineRes.cont a2 ∧ a2.messageId = some (Json.str ("m1".toList)) := by
  have hsup : suppliesMessageId ("\x7b\"content\":\"x\",\"messageId\":\"m1\"\x7d".toList)
      (Json.str ("m1".toList)) :=
    ⟨Json.obj [("content".toList, Json.str ("x".toList)),
               ("messageId".toList, Json.str ("m1".toList))],
     Json.str ("x".toList), rfl, rfl, rfl, rfl, rfl, rfl⟩
  obtain ⟨a2, h1, h2, _⟩ :=
    messageId_update_rule initAcc ("\x7b\"content\":\"x\",\"messageId\":\"m1\"\x7d".toList)
  exact ⟨hsup, a2, h1, h2 _ hsup⟩

/-- C5, the claim as stated is refuted: an `assistant_write` event whose
payload supplies `messageId` `"m9"` but no content leaves the recorded
`messageId` at null, because the update sits inside the truthy-`content`
guard. -/
theorem messageId_update_counterexample :
    jsonParse ("\x7b\"messageId\":\"m9\"\x7d".toList)
      = Except.ok (Json.obj [("messageId".toList, Json.str ("m9".toList))]) ∧
    (processText [("event: assistant_write\ndata: \x7b\"messageId\":\"m9\"\x7d\n").toList]).1
      = Except.ok { content := [], messageId := none, references := none, sources := none } ∧
    (none : Option Json) ≠ some (Json.str ("m9".toList)) := by
  refine ⟨rfl, rfl, ?_⟩
  simp

/-- C7 — the code, unlike the spec, re-raises the JSON parser's own
SyntaxError when an `error` payload fails to parse: the failure message is
the parser diagnostic, not the raw payload.  (The raw-payload fallback line
exists in the source but is unreachable on a parse failure, because the
catch guard re-throws any error whose message differs from
`'Stream error'` — which a SyntaxError's always does.) -/
theorem error_parse_failure_diagnostic :
    jsonParse ("plain text".toList) = Except.error jsonErrTok ∧
    (processText [("event: error\ndata: plain text\n\n").toList]).1
      = Except.error jsonErrTok ∧
    jsonErrTok ≠ ("plain text".toList) :=
  ⟨rfl, rfl, by decide⟩

/-! ## Citation resolution (C8) -/

theorem mapGet_insertNum (m : List (List Char × Nat)) (k k2 : List Char) (v : Nat) :
    mapGet (insertNum m k v) k2 = if k2 = k then some v else mapGet m k2 := by
  induction m with
  | nil =>
    by_cases h : k2 = k
    · subst h; simp [insertNum, mapGet]
    · have h2 : ¬ (k = k2) := fun hc => h hc.symm
      simp [insertNum, mapGet, h, h2]
  | cons kv rest ih =>
    by_cases hk : kv.1 = k
    · have he : insertNum (kv :: rest) k v = (k, v) :: rest := by
        show (if kv.1 = k then (k, v) :: rest else kv :: insertNum rest k v) = _
        rw [if_pos hk]
      rw [he]
      by_cases h2 : k2 = k
      · subst h2; simp [mapGet]
      · have h3 : ¬ (k = k2) := fun hc => h2 hc.symm
        have h4 : ¬ (kv.1 = k2) := by rw [hk]; exact h3
        simp [mapGet, h2, h3, h4]
    · have he : insertNum (kv :: rest) k v = kv :: insertNum rest k v := by
        show (if kv.1 = k then (k, v) :: rest else kv :: insertNum rest k v) = _
        rw [if_neg hk]
      rw [he]
      by_cases h2 : kv.1 = k2
      · have h3 : ¬ (k2 = k) := fun hc => hk (h2.trans hc)
        simp [mapGet, h2, h3]
      · simp [mapGet, h2, ih]

theorem buildMapGo_some (ss : List InlineSourceRec) :
    ∀ (i : Nat) (m : List (List Char × Nat)) (k : List Char) (n : Nat),
      mapGet (buildMapGo ss i m) k = some n →
      (∃ j s, ss.get? j = some s ∧ s.sourceId = k ∧ n = i + j + 1) ∨ mapGet m k = some n := by
  induction ss with
  | nil => intro i m k n h; exact Or.inr h
  | cons s ss ih =>
    intro i m k n h
    rcases ih (i + 1) (insertNum m s.sourceId (i + 1)) k n h with ⟨j, s2, hg, hs, hn⟩ | hm
    · exact Or.inl ⟨j + 1, s2, hg, hs, by omega⟩
    · rw [mapGet_insertNum] at hm
      by_cases hk : k = s.sourceId
      · rw [if_pos hk] at hm
        have hn := Option.some.inj hm
        exact Or.inl ⟨0, s, rfl, hk.symm, by omega⟩
      · rw [if_neg hk] at hm
        exact Or.inr hm

theorem buildMapGo_none (ss : List InlineSourceRec) :
    ∀ (i : Nat) (m : List (List Char × Nat)) (k : List Char),
      mapGet (buildMapGo ss i m) k = none ↔
      (∀ s2 ∈ ss, s2.sourceId ≠ k) ∧ mapGet m k = none := by
  induction ss with
  | nil => intro i m k; simp [buildMapGo]
  | cons s ss ih =>
    intro i m k
    rw [show buildMapGo (s :: ss) i m = buildMapGo ss (i + 1) (insertNum m s.sourceId (i + 1))
      from rfl, ih, mapGet_insertNum]
    constructor
    · rintro ⟨h1, h2⟩
      by_cases hk : k = s.sourceId
      · rw [if_pos hk] at h2; exact absurd h2 (by simp)
      · rw [if_neg hk] at h2
        refine ⟨fun s2 hmem => ?_, h2⟩
        rcases List.mem_cons.1 hmem with hh | hh
        · rw [hh]; exact fun hc => hk hc.symm
        · exact h1 s2 hh
    · rintro ⟨h1, h2⟩
      refine ⟨fun s2 hmem => h1 s2 (List.mem_cons_of_mem s hmem), ?_⟩
      rw [if_neg (fun hc => h1 s (List.mem_cons_self s ss) hc.symm)]
      exact h2

theorem scanRep_congr (matchAt : List Char → Option (List Char × List Char))
    (hm : scanConsumes matchAt) :
    ∀ (f1 f2 : Nat) (s : List Char), s.length ≤ f1 → s.length ≤ f2 →
      scanRep matchAt f1 s = scanRep matchAt f2 s := by
  intro f1
  induction f1 with
  | zero =>
    intro f2 s h1 _
    rw [Nat.le_zero] at h1
    rw [List.length_eq_zero] at h1
    subst h1
    cases f2 <;> rfl
  | succ f ih =>
    intro f2 s h1 h2
    cases s with
    | nil => cases f2 <;> rfl
    | cons c rest =>
      cases f2 with
      | zero => simp at h2
      | succ g =>
        show (match matchAt (c :: rest) with
          | some (rep, after) => rep ++ scanRep matchAt f after
          | none => c :: scanRep matchAt f rest) =
          (match matchAt (c :: rest) with
          | some (rep, after) => rep ++ scanRep matchAt g after
          | none => c :: scanRep matchAt g rest)
        cases hma : matchAt (c :: rest) with
        | some p =>
          obtain ⟨rep, after⟩ := p
          dsimp only
          have hlt := hm (c :: rest) rep after (by rw [hma])
          have e1 : after.length ≤ f := by
            simp at h1 hlt
            omega
          have e2 : after.length ≤ g := by
            simp at h2 hlt
            omega
          rw [ih g after e1 e2]
        | none =>
          dsimp only
          have e1 : rest.length ≤ f := by simp at h1; omega
          have e2 : rest.length ≤ g := by simp at h2; omega
          rw [ih g rest e1 e2]

theorem isPrefixOf_le_length (l s : List Char) (h : l.isPrefixOf s = true) :
    l.length ≤ s.length := by
  induction l generalizing s with
  | nil => simp
  | cons c rest ih =>
    cases s with
    | nil => simp [List.isPrefixOf] at h
    | cons d t =>
      simp only [List.isPrefixOf, Bool.and_eq_true] at h
      have := ih t h.2
      simp
      omega

theorem length_dropWhile_le_chars (p : Char → Bool) (l : List Char) :
    (l.dropWhile p).length ≤ l.length := by
  induction l with
  | nil => simp [List.dropWhile]
  | cons c rest ih =>
    by_cases h : p c = true
    · simp only [List.dropWhile, h, if_true]
      exact Nat.le_succ_of_le ih
    · rw [Bool.not_eq_true] at h
      simp only [List.dropWhile, h, Bool.false_eq_true, if_false]
      simp

theorem dropWhile_head_false (p : Char → Bool) (l : List Char) (d : Char) (r2 : List Char)
    (h : l.dropWhile p = d :: r2) : p d = false := by
  induction l with
  | nil => simp [List.dropWhile] at h
  | cons c rest ih =>
    by_cases hc : p c = true
    · simp only [List.dropWhile, hc, if_true] at h
      exact ih h
    · rw [Bool.not_eq_true] at hc
      simp only [List.dropWhile, hc, Bool.false_eq_true, if_false] at h
      rw [← (List.cons.inj h).1]
      exact hc

theorem mCite_consumes (sm : List (List Char × Nat)) : scanConsumes (mCite sm) := by
  intro s rep after h
  by_cases hp : (":cite[".toList).isPrefixOf s = true
  · have hlen : 6 ≤ s.length := isPrefixOf_le_length _ s hp
    cases htk : (s.drop 6).takeWhile (fun x => x ≠ ']') with
    | nil =>
      exfalso
      unfold mCite at h
      rw [if_pos hp, htk] at h
      cases hdw : (s.drop 6).dropWhile (fun x => x ≠ ']') with
      | nil => rw [hdw] at h; simp at h
      | cons d r2 => rw [hdw] at h; simp at h
    | cons c rest =>
      cases hdw : (s.drop 6).dropWhile (fun x => x ≠ ']') with
      | nil =>
        exfalso
        unfold mCite at h
        rw [if_pos hp, htk, hdw] at h
        simp at h
      | cons d r2 =>
        have hd : d = ']' := by
          have := dropWhile_head_false (fun x => x ≠ ']') (s.drop 6) d r2 hdw
          simpa using this
        subst hd
        have hr2 : r2.length + 1 ≤ (s.drop 6).length := by
          have := length_dropWhile_le_chars (fun x => x ≠ ']') (s.drop 6)
          rw [hdw] at this
          simpa using this
        have hdl : (s.drop 6).length = s.length - 6 := by simp
        have hafter : after = r2 := by
          cases hg : mapGet sm (c :: rest) with
          | some n =>
            have heval : mCite sm s = some (supTag (c :: rest) n, r2) := by
              unfold mCite
              rw [if_pos hp, htk, hdw]
              show (match mapGet sm (c :: rest) with
                | some n => some (supTag (c :: rest) n, r2)
                | none => some (citeLit (c :: rest), r2)) = _
              rw [hg]
            have h2 := Option.some.inj (heval.symm.trans h)
            exact (congrArg Prod.snd h2).symm
          | none =>
            have heval : mCite sm s = some (citeLit (c :: rest), r2) := by
              unfold mCite
              rw [if_pos hp, htk, hdw]
              show (match mapGet sm (c :: rest) with
                | some n => some (supTag (c :: rest) n, r2)
                | none => some (citeLit (c :: rest), r2)) = _
              rw [hg]
            have h2 := Option.some.inj (heval.symm.trans h)
            exact (congrArg Prod.snd h2).symm
        rw [hafter]
        omega
  · exfalso
    unfold mCite at h
    rw [Bool.not_eq_true] at hp
    rw [hp] at h
    simp at h

theorem takeWhile_append_stop (idl : List Char) (t : List Char)
    (hnc : ']' ∉ idl) :
    (idl ++ ']' :: t).takeWhile (fun x => x ≠ ']') = idl ∧
    (idl ++ ']' :: t).dropWhile (fun x => x ≠ ']') = ']' :: t := by
  induction idl with
  | nil => simp [List.takeWhile, List.dropWhile]
  | cons c rest ih =>
    have hc : c ≠ ']' := fun hc => hnc (hc ▸ List.mem_cons_self c rest)
    have hr : ']' ∉ rest := fun hr => hnc (List.mem_cons_of_mem c hr)
    obtain ⟨ih1, ih2⟩ := ih hr
    have hpc : decide (c ≠ ']') = true := by simp [hc]
    constructor
    · rw [List.cons_append]
      show (match decide (c ≠ ']') with
        | true => c :: (rest ++ ']' :: t).takeWhile (fun x => decide (x ≠ ']'))
        | false => []) = c :: rest
      rw [hpc, ih1]
    · rw [List.cons_append]
      show (match decide (c ≠ ']') with
        | true => (rest ++ ']' :: t).dropWhile (fun x => decide (x ≠ ']'))
        | false => c :: (rest ++ ']' :: t)) = ']' :: t
      rw [hpc, ih2]

/-- `mCite` at a well-formed marker resolves or passes it through, always
continuing right after. -/
theorem mCite_at_marker (sm : List (List Char × Nat)) (id1 v : List Char)
    (hid : id1 ≠ []) (hidc : ']' ∉ id1) :
    mCite sm (citeLit id1 ++ v) =
      some ((match mapGet sm id1 with
             | some n => supTag id1 n
             | none => citeLit id1), v) := by
  obtain ⟨c, rest, rfl⟩ := List.exists_cons_of_ne_nil hid
  have hshape : citeLit (c :: rest) ++ v = ":cite[".toList ++ ((c :: rest) ++ ']' :: v) := by
    unfold citeLit
    simp
  rw [hshape]
  unfold mCite
  rw [if_pos (isPrefixOf_append_self _ _)]
  have hdrop : (":cite[".toList ++ ((c :: rest) ++ ']' :: v)).drop 6 =
      (c :: rest) ++ ']' :: v := rfl
  rw [hdrop]
  obtain ⟨htk, hdw⟩ := takeWhile_append_stop (c :: rest) v hidc
  rw [htk, hdw]
  cases hg : mapGet sm (c :: rest) with
  | some n =>
    show (match mapGet sm (c :: rest) with
      | some n => some (supTag (c :: rest) n, v)
      | none => some (citeLit (c :: rest), v)) = _
    rw [hg]
  | none =>
    show (match mapGet sm (c :: rest) with
      | some n => some (supTag (c :: rest) n, v)
      | none => some (citeLit (c :: rest), v)) = _
    rw [hg]

/-- The marker string `:cite[` has no nontrivial self-overlap, so a marker
occurrence cannot begin strictly inside marker-free preceding text. -/
theorem cite_prefix_boundary (c1 : Char) (u2 rest : List Char)
    (h : (":cite[".toList).isPrefixOf (c1 :: u2) = false) :
    (":cite[".toList).isPrefixOf ((c1 :: u2) ++ ":cite[".toList ++ rest) = false := by
  match u2 with
  | [] => simp [List.isPrefixOf]
  | [c2] => simp [List.isPrefixOf]
  | [c2, c3] => simp [List.isPrefixOf]
  | [c2, c3, c4] => simp [List.isPrefixOf]
  | [c2, c3, c4, c5] => simp [List.isPrefixOf]
  | c2 :: c3 :: c4 :: c5 :: c6 :: u3 =>
    simp only [List.cons_append, List.isPrefixOf, isPrefixOf_nil_left,
      Bool.and_true] at h ⊢
    exact h

/-- One scanner step on a non-matching position copies the character. -/
theorem scanRep_cons_none (m : List Char → Option (List Char × List Char)) (f : Nat)
    (c : Char) (rest : List Char) (h : m (c :: rest) = none) :
    scanRep m (f + 1) (c :: rest) = c :: scanRep m f rest := by
  show (match m (c :: rest) with
    | some (rep, after) => rep ++ scanRep m f after
    | none => c :: scanRep m f rest) = _
  rw [h]

/-- One scanner step on a matching position emits the replacement and
continues after the match. -/
theorem scanRep_cons_some (m : List Char → Option (List Char × List Char)) (f : Nat)
    (c : Char) (rest rep after : List Char) (h : m (c :: rest) = some (rep, after)) :
    scanRep m (f + 1) (c :: rest) = rep ++ scanRep m f after := by
  show (match m (c :: rest) with
    | some (rep, after) => rep ++ scanRep m f after
    | none => c :: scanRep m f rest) = _
  rw [h]

/-- The scanner copies a prefix on which the matcher never fires. -/
theorem scanRep_skip (m : List Char → Option (List Char × List Char)) :
    ∀ (u W : List Char),
      (∀ u2, u2 ≠ [] → (∃ u1, u = u1 ++ u2) → m (u2 ++ W) = none) →
      scanRep m (u ++ W).length (u ++ W) = u ++ scanRep m W.length W := by
  intro u
  induction u with
  | nil => intro W _; rfl
  | cons c u2 ih =>
    intro W hno
    have h0 : m (c :: (u2 ++ W)) = none := hno (c :: u2) (by simp) ⟨[], rfl⟩
    have hlen : ((c :: u2) ++ W).length = (u2 ++ W).length + 1 := by simp
    rw [show (c :: u2) ++ W = c :: (u2 ++ W) from rfl] at hlen ⊢
    rw [hlen, scanRep_cons_none m _ c (u2 ++ W) h0]
    rw [ih W (fun u3 hne ⟨u1, hu⟩ => hno u3 hne ⟨c :: u1, by rw [hu]; rfl⟩)]
    rfl

theorem citeFreeB_cons (c : Char) (rest : List Char) :
    citeFreeB (c :: rest) = (!(":cite[".toList).isPrefixOf (c :: rest) && citeFreeB rest) := rfl

/-- A suffix of marker-free text is marker-free. -/
theorem citeFreeB_suffix (u1 : List Char) :
    ∀ u2, citeFreeB (u1 ++ u2) = true → citeFreeB u2 = true := by
  induction u1 with
  | nil => intro u2 h; exact h
  | cons c u1t ih =>
    intro u2 h
    apply ih
    rw [show (c :: u1t) ++ u2 = c :: (u1t ++ u2) from rfl, citeFreeB_cons,
      Bool.and_eq_true] at h
    exact h.2

/-- The matcher never fires strictly inside marker-free text preceding a
marker. -/
theorem mCite_none_in_free (sm : List (List Char × Nat)) (c : Char) (u2 rest : List Char)
    (h : (":cite[".toList).isPrefixOf (c :: u2) = false) :
    mCite sm ((c :: u2) ++ (":cite[".toList ++ rest)) = none := by
  unfold mCite
  rw [← List.append_assoc]
  rw [cite_prefix_boundary c u2 rest h]
  rfl

theorem citeLit_ne_nil (id1 : List Char) : citeLit id1 ++ v ≠ [] := by
  unfold citeLit
  simp

theorem scanRep_start_marker (sm : List (List Char × Nat)) (id1 v : List Char)
    (hid : id1 ≠ []) (hidc : ']' ∉ id1) :
    scanRep (mCite sm) (citeLit id1 ++ v).length (citeLit id1 ++ v) =
      (match mapGet sm id1 with
       | some n => supTag id1 n
       | none => citeLit id1) ++ scanRep (mCite sm) v.length v := by
  have hm := mCite_at_marker sm id1 v hid hidc
  obtain ⟨c, rest, hcr⟩ : ∃ c rest, citeLit id1 ++ v = c :: rest := by
    cases hh : citeLit id1 ++ v with
    | nil => exact absurd hh (citeLit_ne_nil id1)
    | cons c rest => exact ⟨c, rest, rfl⟩
  have hflen : (citeLit id1 ++ v).length = rest.length + 1 := by
    rw [hcr]; rfl
  have hvle : v.length ≤ rest.length := by
    have h1 : (citeLit id1 ++ v).length = (citeLit id1).length + v.length := by simp
    have h2 : 1 ≤ (citeLit id1).length := by
      unfold citeLit
      simp
    omega
  rw [hcr] at hm
  rw [hflen, hcr]
  rw [scanRep_cons_some (mCite sm) rest.length c rest _ v hm]
  rw [scanRep_congr (mCite sm) (mCite_consumes sm) rest.length v.length v hvle (Nat.le_refl _)]

theorem processCitations_marker (sources : List InlineSourceRec) (u id1 v : List Char)
    (hu : citeFreeB u = true) (hid : id1 ≠ []) (hidc : ']' ∉ id1) :
    processCitations sources (u ++ (citeLit id1 ++ v)) =
      u ++ ((match mapGet (buildSourceMap sources) id1 with
             | some n => supTag id1 n
             | none => citeLit id1) ++ processCitations sources v) := by
  have hW : citeLit id1 ++ v = ":cite[".toList ++ ((id1 ++ [']']) ++ v) := by
    unfold citeLit
    simp
  have hskip : scanRep (mCite (buildSourceMap sources))
      (u ++ (citeLit id1 ++ v)).length (u ++ (citeLit id1 ++ v)) =
      u ++ scanRep (mCite (buildSourceMap sources))
        (citeLit id1 ++ v).length (citeLit id1 ++ v) := by
    rw [hW]
    apply scanRep_skip
    rintro u2 hne ⟨u1, hsplit⟩
    obtain ⟨c, u3, rfl⟩ := List.exists_cons_of_ne_nil hne
    have hfree2 : citeFreeB (c :: u3) = true := citeFreeB_suffix u1 (c :: u3) (hsplit ▸ hu)
    rw [citeFreeB_cons, Bool.and_eq_true] at hfree2
    have hnp : (":cite[".toList).isPrefixOf (c :: u3) = false := by
      have := hfree2.1
      simpa using this
    exact mCite_none_in_free _ c u3 _ hnp
  show scanRep (mCite (buildSourceMap sources))
      (u ++ (citeLit id1 ++ v)).length (u ++ (citeLit id1 ++ v)) = _
  rw [hskip, scanRep_start_marker (buildSourceMap sources) id1 v hid hidc]
  rfl

/-- C8 — Citation resolution: in text made of marker-free surroundings and
one citation marker `:cite[id]`, a marker whose id is the `sourceId` of
some source entry is replaced by the numbered superscript whose number is
that entry's 1-based position in the ordered source list, scanning then
continuing after it; a marker whose id matches no entry is left as the
literal marker text.  The lookup succeeds exactly when some entry carries
the id (the processor is a total function — no input is an error). -/
theorem citation_resolution (sources : List InlineSourceRec) (u id1 v : List Char)
    (hu : citeFreeB u = true) (hid : id1 ≠ []) (hidc : ']' ∉ id1) :
    (∀ n, mapGet (buildSourceMap sources) id1 = some n →
       processCitations sources (u ++ (citeLit id1 ++ v)) =
         u ++ (supTag id1 n ++ processCitations sources v) ∧
       1 ≤ n ∧ ∃ s, sources.get? (n - 1) = some s ∧ s.sourceId = id1) ∧
    (mapGet (buildSourceMap sources) id1 = none →
       processCitations sources (u ++ (citeLit id1 ++ v)) =
         u ++ (citeLit id1 ++ processCitations sources v)) ∧
    (mapGet (buildSourceMap sources) id1 = none ↔ ∀ s ∈ sources, s.sourceId ≠ id1) := by
  have hmk := processCitations_marker sources u id1 v hu hid hidc
  refine ⟨?_, ?_, ?_⟩
  · intro n hg
    rw [hg] at hmk
    refine ⟨hmk, ?_⟩
    rcases buildMapGo_some sources 0 [] id1 n hg with ⟨j, s, hj, hs, hn⟩ | habs
    · refine ⟨by omega, s, ?_, hs⟩
      rw [show n - 1 = j from by omega]
      exact hj
    · exact absurd habs (by simp [mapGet])
  · intro hg
    rw [hg] at hmk
    exact hmk
  · rw [show buildSourceMap sources = buildMapGo sources 0 [] from rfl,
      buildMapGo_none sources 0 [] id1]
    simp [mapGet]

theorem citation_resolution_witness :
    mapGet (buildSourceMap c8Sources) ("b".toList) = some 2 ∧
    citeFreeB ("see ".toList) = true ∧
    (processCitations c8Sources
        ("see ".toList ++ (citeLit ("b".toList) ++ " end".toList)) =
      "see ".toList ++ (supTag ("b".toList) 2 ++ processCitations c8Sources (" end".toList)) ∧
     1 ≤ 2 ∧ ∃ s, c8Sources.get? (2 - 1) = some s ∧ s.sourceId = "b".toList) := by
  refine ⟨rfl, by decide, ?_⟩
  exact (citation_resolution c8Sources ("see ".toList) ("b".toList) (" end".toList)
    (by decide) (by decide) (by decide)).1 2 rfl

theorem escChar_no_angle (c : Char) : '<' ∉ escChar c ∧ '>' ∉ escChar c := by
  unfold escChar
  split_ifs with h1 h2 h3 h4 h5
  · exact ⟨by decide, by decide⟩
  · exact ⟨by decide, by decide⟩
  · exact ⟨by decide, by decide⟩
  · exact ⟨by decide, by decide⟩
  · exact ⟨by decide, by decide⟩
  · constructor
    · intro hm
      rw [List.mem_singleton] at hm
      exact h2 hm.symm
    · intro hm
      rw [List.mem_singleton] at hm
      exact h3 hm.symm

/-- C9 — Markdown round-trip: with sanitization on (the default), the
reference input renders with `<strong>bold</strong>`, `<em>italic</em>`,
`<code>code</code>` present in that left-to-right order; and for every
input, the render pipeline is the fixed transform chain applied to the
escaped text, in which no `<` or `>` of the original input survives — every
angle bracket of the output is introduced by the renderer's own tags. -/
theorem markdown_roundtrip :
    containsInOrder (render true ("**bold** and *italic* and `code`".toList))
      ["<strong>bold</strong>".toList, "<em>italic</em>".toList,
       "<code>code</code>".toList] = true ∧
    (∀ s : List Char, '<' ∉ escapeHtml s ∧ '>' ∉ escapeHtml s) ∧
    (∀ s : List Char, render true s = if s = [] then [] else mdPipeline (escapeHtml s)) := by
  refine ⟨by decide, fun s => ?_, fun s => rfl⟩
  constructor
  · intro hm
    rw [escapeHtml, List.mem_flatMap] at hm
    obtain ⟨a, _, hmem⟩ := hm
    exact absurd hmem (escChar_no_angle a).1
  · intro hm
    rw [escapeHtml, List.mem_flatMap] at hm
    obtain ⟨a, _, hmem⟩ := hm
    exact absurd hmem (escChar_no_angle a).2

theorem markdown_roundtrip_witness :
    '<' ∉ escapeHtml ("a<b>c".toList) ∧ '>' ∉ escapeHtml ("a<b>c".toList) :=
  markdown_roundtrip.2.1 ("a<b>c".toList)

/-- C3, the claim as literally stated is refuted by a stream carrying a
fatal `error` event: its chunk source also ends without a `done` event
having been classified, yet the call raises instead of returning a
synthesized result (the behaviour C2 requires). -/
theorem truncated_stream_completes_counterexample :
    noDoneB (processText [("event: error\ndata: \x7b\"message\":\"x\"\x7d\n").toList]).2.1
      = true ∧
    (processText [("event: error\ndata: \x7b\"message\":\"x\"\x7d\n").toList]).1
      = Except.error ("x".toList) ∧
    ∀ r, (processText [("event: error\ndata: \x7b\"message\":\"x\"\x7d\n").toList]).1
      ≠ Except.ok r := by
  have e1 : (processText [("event: error\ndata: \x7b\"message\":\"x\"\x7d\n").toList]).1
      = Except.error ("x".toList) := rfl
  refine ⟨by decide, e1, fun r h => ?_⟩
  exact absurd (e1.symm.trans h) (by simp)

end Omnifact
